import Mathlib

/-!
# Verification of `HashMap` (src/task1.cpp)

A shallow embedding of the chained hash table of `src/task1.cpp` and proofs of
the properties its specification states.

Modelling conventions.

* `size_t` values are natural numbers.  The only arithmetic the table performs
  on them is `hasher_(key) % cap_`, `2 * cap_`, `++size_`, `--size_` and
  `++node`; the capacity starts at 8 and doubles only when `2 * size_ >= cap_`,
  so a wrap-around at `2^64` would need more than `2^61` stored entries.
* `rehash_enlarge_coaf` is a `double` holding `2`; the comparison
  `size() * rehash_enlarge_coaf >= capacity()` is the comparison of naturals
  `size_ * 2 >= cap_`.
* `std::list<size_t> filled_cells` is a list of nodes `(identity, value)`.  The
  identity stands for the address of the list node, which is what a
  `std::list<size_t>::iterator` holds; `fresh` is the allocation counter that
  hands out identities.  `TableCell::it` is `none` while it is still
  default-constructed.
* A vector iterator into `table_` is the index of the cell it points to.
* Loops whose termination depends on the state (the `while` of `operator++`,
  the range-`for` over the table, the recursion `insert -> rehash -> insert`)
  take a fuel argument and return `none` when it runs out.  Every theorem
  about them shows that enough fuel yields a result.
* Where C++ leaves the behaviour undefined (indexing past the end of a vector,
  `back()` of an empty list, dereferencing a dangling list iterator) the total
  functions below pick the value written in their doc comment.  The invariant
  `Inv` shows that no table built through the public interface gets there.
-/

set_option linter.unusedSectionVars false

namespace Task1

/-- `HashMap::default_capacity` (line 373). -/
def default_capacity : Nat := 8

/-- `HashMap::rehash_enlarge_coaf` (line 376). -/
def rehash_enlarge_coaf : Nat := 2

/-- `struct TableCell` (lines 17-20): the back-reference into `filled_cells`
and the chain of entries. -/
structure TableCell (K V : Type) where
  it : Option Nat
  nodes : List (K × V)
deriving DecidableEq

/-- Data members of `class iterator` / `class const_iterator` (lines 72-73,
126-127): the cell pointed to and the offset in its chain.  The pointer
`connected_map` is the table passed to the functions below. -/
structure iterator where
  cell : Nat
  node : Nat
deriving DecidableEq

/-- Data members of `class HashMap` (lines 322-326), and the allocation counter
`fresh` of the nodes of `filled_cells`. -/
structure HashMap (K V : Type) where
  size_ : Nat
  cap_ : Nat
  hasher_ : K → Nat
  filled_cells : List (Nat × Nat)
  table_ : List (TableCell K V)
  fresh : Nat

/-- The exception of `at` (line 310) and the faults of the model. -/
inductive Fault where
  | out_of_range
  | undefined_behaviour
deriving DecidableEq

section Defs

variable {K V : Type}

/-- `std::next(it)` on `filled_cells`: the node after the one `it` points to,
`none` when that is `filled_cells.end()` (also when `it` points to no node of
the list, which C++ leaves undefined). -/
def listNext : List (Nat × Nat) → Option Nat → Option (Nat × Nat)
  | [], _ => none
  | n :: rest, it => if some n.1 = it then rest.head? else listNext rest it

/-- `filled_cells.erase(it)`: unlink the node `it` points to (no change when
`it` points to no node of the list, which C++ leaves undefined). -/
def listErase : List (Nat × Nat) → Option Nat → List (Nat × Nat)
  | [], _ => []
  | n :: rest, it => if some n.1 = it then rest else n :: listErase rest it

/-- `filled_cells.back()` (0 on the empty list, which C++ leaves undefined). -/
def back (l : List (Nat × Nat)) : Nat :=
  match l.getLast? with
  | some n => n.2
  | none => 0

/-- `filled_cells.front()` (0 on the empty list, which C++ leaves
undefined). -/
def front (l : List (Nat × Nat)) : Nat :=
  match l.head? with
  | some n => n.2
  | none => 0

/-- `std::vector::resize` with default-constructed new cells. -/
def resize (t : List (TableCell K V)) (n : Nat) : List (TableCell K V) :=
  t.take n ++ List.replicate (n - t.length) ⟨none, []⟩

/-- `table_[i]` (an empty default cell past the end, which C++ leaves
undefined). -/
def cellAt (m : HashMap K V) (i : Nat) : TableCell K V :=
  m.table_.getD i ⟨none, []⟩

/-- `size()` (lines 159-161). -/
def size (m : HashMap K V) : Nat := m.size_

/-- `capacity()` (lines 162-164). -/
def capacity (m : HashMap K V) : Nat := m.cap_

/-- `empty()` (lines 168-170). -/
def empty (m : HashMap K V) : Bool := size m == 0

/-- `get_hash` (lines 367-369). -/
def get_hash (m : HashMap K V) (key : K) : Nat := m.hasher_ key % capacity m

/-- `end()` (lines 132-137 and 145-150). -/
def end_ (m : HashMap K V) : iterator :=
  if size m > 0 then
    ⟨back m.filled_cells, (cellAt m (back m.filled_cells)).nodes.length⟩
  else
    ⟨m.table_.length - 1, 0⟩

/-- `begin()` (lines 138-143 and 151-156). -/
def begin (m : HashMap K V) : iterator :=
  if size m > 0 then ⟨front m.filled_cells, 0⟩ else end_ m

/-- `operator*` / `operator->` of the iterators (lines 40-45, 94-99); `none`
when the offset is past the chain, which C++ leaves undefined. -/
def deref (m : HashMap K V) (c : iterator) : Option (K × V) :=
  (cellAt m c.cell).nodes[c.node]?

/-- The `while` loop of `operator++` (lines 50-58) started with the iterator
in state `c`.  The loop of `const_iterator` (lines 104-112) is `const_skip`,
which `const_skip_eq` shows to compute the same. -/
def skip : Nat → HashMap K V → iterator → Option iterator
  | 0, _, _ => none
  | fuel + 1, m, c =>
    match listNext m.filled_cells (cellAt m c.cell).it with
    | none => some c
    | some n =>
      if (cellAt m n.2).nodes.isEmpty then
        skip fuel m ⟨n.2, (cellAt m n.2).nodes.length⟩
      else
        some ⟨n.2, 0⟩

/-- `iterator::operator++` (lines 47-62); `const_iterator::operator++` (lines
101-116) is `const_incr`, which `const_incr_eq` shows to compute the same. -/
def incr (fuel : Nat) (m : HashMap K V) (c : iterator) : Option iterator :=
  if c.node + 1 = (cellAt m c.cell).nodes.length then
    skip fuel m ⟨c.cell, c.node + 1⟩
  else
    some ⟨c.cell, c.node + 1⟩

/-- The range-`for` over a table (line 345; lines 197, 208, 220 walk a `const`
table with `const_iterator`, which `const_collect_eq` shows to visit the
same): the entries met from the iterator `c` until `end()`. -/
def collect : Nat → HashMap K V → iterator → Option (List (K × V))
  | 0, _, _ => none
  | fuel + 1, m, c =>
    if c = end_ m then some []
    else
      match deref m c, incr fuel m c with
      | some p, some c1 =>
        match collect fuel m c1 with
        | some l => some (p :: l)
        | none => none
      | _, _ => none

/-- `default_init` (lines 357-361). -/
def default_init (m : HashMap K V) : HashMap K V :=
  { m with size_ := 0, cap_ := default_capacity,
           table_ := resize m.table_ default_capacity }

/-- Body of the loop of `clear` (line 315): `table_[cell].nodes.clear()`. -/
def clearCell (t : List (TableCell K V)) (cell : Nat) : List (TableCell K V) :=
  t.set cell ⟨(t.getD cell ⟨none, []⟩).it, []⟩

/-- `clear` (lines 313-319). -/
def clear (m : HashMap K V) : HashMap K V :=
  default_init
    { m with table_ := m.filled_cells.foldl (fun t n => clearCell t n.2) m.table_,
             filled_cells := [] }

/-- Lines 348-351 of `rehash`: `clear(); cap_ = new_cap;
table_.resize(new_cap);`. -/
def reset (m : HashMap K V) (new_cap : Nat) : HashMap K V :=
  { clear m with cap_ := new_cap, table_ := resize (clear m).table_ new_cap }

/-- `HashMap(Hash hasher)` (lines 172-174): the data members are
default-constructed, then `default_init` runs. -/
def new (hasher : K → Nat) : HashMap K V :=
  default_init ⟨0, 0, hasher, [], [], 0⟩

variable [DecidableEq K]

/-- The loop of `find` (lines 231-236, 243-248): position of the first entry
of the chain whose key equals `key`. -/
def findPos (key : K) : List (K × V) → Option Nat
  | [] => none
  | p :: rest => if p.1 = key then some 0 else (findPos key rest).map (· + 1)

/-- `find` (lines 228-239 and 240-251). -/
def find (m : HashMap K V) (key : K) : iterator :=
  match findPos key (cellAt m (get_hash m key)).nodes with
  | some pos => ⟨get_hash m key, pos⟩
  | none => end_ m

/-- `counts` (lines 363-365). -/
def counts (m : HashMap K V) (key : K) : Bool :=
  find m key != end_ m

/-- Lines 258-264 of `insert`: link the cell into `filled_cells` if it was
empty, append the entry, increment the size. -/
def push_node (m : HashMap K V) (node : K × V) : HashMap K V :=
  let h := get_hash m node.1
  if (cellAt m h).nodes.isEmpty then
    { m with filled_cells := m.filled_cells ++ [(m.fresh, h)],
             fresh := m.fresh + 1,
             table_ := m.table_.set h ⟨some m.fresh, (cellAt m h).nodes ++ [node]⟩,
             size_ := m.size_ + 1 }
  else
    { m with table_ := m.table_.set h ⟨(cellAt m h).it, (cellAt m h).nodes ++ [node]⟩,
             size_ := m.size_ + 1 }

/-- `rehash` (lines 342-355), with the `insert` it calls passed as `ins`. -/
def rehash (ins : HashMap K V → K × V → Option (HashMap K V)) (fuel : Nat)
    (m : HashMap K V) (new_cap : Nat) : Option (HashMap K V) :=
  match collect fuel m (begin m) with
  | none => none
  | some tmp =>
    tmp.foldlM ins (reset m new_cap)

/-- `insert` (lines 253-269). -/
def insert : Nat → HashMap K V → K × V → Option (HashMap K V)
  | 0, _, _ => none
  | fuel + 1, m, node =>
    if counts m node.1 then some m
    else if (push_node m node).size_ * rehash_enlarge_coaf ≥ (push_node m node).cap_ then
      rehash (insert fuel) fuel (push_node m node) (2 * (push_node m node).cap_)
    else some (push_node m node)

/-- `erase` (lines 270-294).  `--size_` runs only after `counts(key)` held;
`size_ - 1` is that decrement wherever `0 < size_`, which `Inv0.size_pos` shows
for the tables of the invariant. -/
def erase (m : HashMap K V) (key : K) : HashMap K V :=
  if !counts m key then m
  else
    let h := get_hash m key
    let new_cell := (cellAt m h).nodes.filter (fun p => !decide (p.1 = key))
    { m with size_ := m.size_ - 1,
             table_ := m.table_.set h ⟨(cellAt m h).it, new_cell⟩,
             filled_cells :=
               if new_cell.isEmpty then listErase m.filled_cells (cellAt m h).it
               else m.filled_cells }

/-- `at` (lines 305-311). -/
def at_ (m : HashMap K V) (key : K) : Except Fault V :=
  if find m key != end_ m then
    match deref m (find m key) with
    | some p => .ok p.2
    | none => .error .undefined_behaviour
  else .error .out_of_range

/-- `operator[]` (lines 296-304): the value the returned reference designates
and the table afterwards. -/
def index [Inhabited V] (fuel : Nat) (m : HashMap K V) (key : K) :
    Option (V × HashMap K V) :=
  if find m key = end_ m then
    match insert fuel m (key, default) with
    | none => none
    | some m1 =>
      match deref m1 (find m1 key) with
      | some p => some (p.2, m1)
      | none => none
  else
    match deref m (find m key) with
    | some p => some (p.2, m)
    | none => none

/-- Assignment through the reference that `operator*`, `operator->` or
`operator[]` returns for the entry at `c`: `c->second = v` (no change when `c`
designates no entry, which C++ leaves undefined). -/
def store (m : HashMap K V) (c : iterator) (v : V) : HashMap K V :=
  match deref m c with
  | none => m
  | some p =>
    { m with
      table_ := m.table_.set c.cell
                  ⟨(cellAt m c.cell).it, (cellAt m c.cell).nodes.set c.node (p.1, v)⟩ }

/-- `HashMap(It first, It last, Hash hasher)` (lines 175-183); `l` is the
sequence `[first, last)`. -/
def from_range (fuel : Nat) (hasher : K → Nat) (l : List (K × V)) :
    Option (HashMap K V) :=
  l.foldlM (insert fuel) (new hasher)

/-- `HashMap(std::initializer_list<Node> l)` (lines 184-190); `hasher` is the
default-constructed `Hash`. -/
def from_initializer_list (fuel : Nat) (hasher : K → Nat) (l : List (K × V)) :
    Option (HashMap K V) :=
  l.foldlM (insert fuel) (default_init ⟨0, 0, hasher, [], [], 0⟩)

/-- The guarded body shared by the copy constructor and the assignments (lines
194-199, 205-210, 217-222), for `this` and `other` distinct objects: adopt the
hasher, `clear`, `insert` every entry of `other` in traversal order. -/
def copy_from (fuel : Nat) (this other : HashMap K V) : Option (HashMap K V) :=
  match collect fuel other (begin other) with
  | none => none
  | some l => l.foldlM (insert fuel) (clear { this with hasher_ := other.hasher_ })

/-- `HashMap(const HashMap& other)` (lines 192-201): the data members start
default-constructed. -/
def copy_ctor (fuel : Nat) (other : HashMap K V) : Option (HashMap K V) :=
  copy_from fuel ⟨0, 0, other.hasher_, [], [], 0⟩ other

/-- `operator=(const HashMap& other)` (lines 203-214), `this != &other`. -/
def copy_assign (fuel : Nat) (this other : HashMap K V) : Option (HashMap K V) :=
  copy_from fuel this other

/-- `operator=(HashMap&& other)` (lines 215-226), `this != &other`. -/
def move_assign (fuel : Nat) (this other : HashMap K V) : Option (HashMap K V) :=
  copy_from fuel this other

end Defs

section Preds
variable {K V : Type}

/-- The entry `(key, v)` is stored in the chain `key` hashes to. -/
def Has (m : HashMap K V) (key : K) (v : V) : Prop :=
  (key, v) ∈ (cellAt m (get_hash m key)).nodes

/-- All entries in traversal order: the chains of the cells of `filled_cells`,
front to back. -/
def entries (m : HashMap K V) : List (K × V) :=
  m.filled_cells.flatMap (fun n => (cellAt m n.2).nodes)

/-- Every cell of the bucket array has an empty chain. -/
def AllEmpty (t : List (TableCell K V)) : Prop :=
  ∀ i, (t.getD i ⟨none, []⟩).nodes = []

/-- Representation invariant of the table, without the load bound. -/
structure Inv0 (m : HashMap K V) : Prop where
  len_eq : m.table_.length = m.cap_
  cap_ge : default_capacity ≤ m.cap_
  size_eq : m.size_ = (m.table_.map (fun c => c.nodes.length)).sum
  hash_ok : ∀ i p, p ∈ (cellAt m i).nodes → m.hasher_ p.1 % m.cap_ = i
  keys_nodup : ∀ i, ((cellAt m i).nodes.map Prod.fst).Nodup
  ids_nodup : (m.filled_cells.map Prod.fst).Nodup
  idx_nodup : (m.filled_cells.map Prod.snd).Nodup
  filled_iff : ∀ i, i ∈ m.filled_cells.map Prod.snd ↔ (cellAt m i).nodes ≠ []
  backref : ∀ n ∈ m.filled_cells, (cellAt m n.2).it = some n.1
  fresh_gt : ∀ n ∈ m.filled_cells, n.1 < m.fresh

/-- Representation invariant of the table between two public operations. -/
structure Inv (m : HashMap K V) : Prop where
  inv0 : Inv0 m
  load : m.size_ * rehash_enlarge_coaf < m.cap_

end Preds

section Reach
variable {K V : Type} [DecidableEq K] [Inhabited V]

/-- The tables a program can build through the public interface of the class:
the constructors, the assignments, `insert`, `erase`, `operator[]`, `clear`
and assignments to the value of a stored entry. -/
inductive Reachable : HashMap K V → Prop
  | new (hasher : K → Nat) : Reachable (new hasher)
  | from_range {fuel : Nat} {hasher : K → Nat} {l : List (K × V)} {r : HashMap K V} :
      from_range fuel hasher l = some r → Reachable r
  | from_initializer_list {fuel : Nat} {hasher : K → Nat} {l : List (K × V)}
      {r : HashMap K V} :
      from_initializer_list fuel hasher l = some r → Reachable r
  | copy_ctor {fuel : Nat} {other r : HashMap K V} :
      Reachable other → copy_ctor fuel other = some r → Reachable r
  | copy_assign {fuel : Nat} {m other r : HashMap K V} :
      Reachable m → Reachable other → copy_assign fuel m other = some r → Reachable r
  | move_assign {fuel : Nat} {m other r : HashMap K V} :
      Reachable m → Reachable other → move_assign fuel m other = some r → Reachable r
  | insert {fuel : Nat} {m r : HashMap K V} {p : K × V} :
      Reachable m → insert fuel m p = some r → Reachable r
  | erase {m : HashMap K V} (key : K) : Reachable m → Reachable (erase m key)
  | index {fuel : Nat} {m r : HashMap K V} {key : K} {v : V} :
      Reachable m → index fuel m key = some (v, r) → Reachable r
  | clear {m : HashMap K V} : Reachable m → Reachable (clear m)
  | store {m : HashMap K V} (c : iterator) (v : V) :
      Reachable m → Reachable (store m c v)

end Reach

section Examples

/-- A hasher for the worked examples: `std::hash<size_t>` as the identity. -/
def exHash : Nat → Nat := fun k => k

/-- The table `HashMap<size_t, size_t>{{0, 10}, {8, 11}, {1, 12}}`: keys 0 and
8 share cell 0, and one more insertion of a new key triggers the grow. -/
def exThree : HashMap Nat Nat :=
  { size_ := 3, cap_ := 8, hasher_ := exHash,
    filled_cells := [(0, 0), (1, 1)],
    table_ := [⟨some 0, [(0, 10), (8, 11)]⟩, ⟨some 1, [(1, 12)]⟩, ⟨none, []⟩, ⟨none, []⟩,
               ⟨none, []⟩, ⟨none, []⟩, ⟨none, []⟩, ⟨none, []⟩],
    fresh := 2 }

end Examples

section MoreDefs
variable {K V : Type}

/-- `const_iterator::operator++`, the `while` loop (lines 104-112). -/
def const_skip : Nat → HashMap K V → iterator → Option iterator
  | 0, _, _ => none
  | fuel + 1, m, c =>
    match listNext m.filled_cells (cellAt m c.cell).it with
    | none => some c
    | some n =>
      if (cellAt m n.2).nodes.isEmpty then
        const_skip fuel m ⟨n.2, (cellAt m n.2).nodes.length⟩
      else
        some ⟨n.2, 0⟩

/-- `const_iterator::operator++` (lines 101-116). -/
def const_incr (fuel : Nat) (m : HashMap K V) (c : iterator) : Option iterator :=
  if c.node + 1 = (cellAt m c.cell).nodes.length then
    const_skip fuel m ⟨c.cell, c.node + 1⟩
  else
    some ⟨c.cell, c.node + 1⟩

/-- The range-`for` over a `const` table (lines 197, 208, 220), which walks
with `const_iterator`: the entries met from `c` until `end()`. -/
def const_collect : Nat → HashMap K V → iterator → Option (List (K × V))
  | 0, _, _ => none
  | fuel + 1, m, c =>
    if c = end_ m then some []
    else
      match deref m c, const_incr fuel m c with
      | some p, some c1 =>
        match const_collect fuel m c1 with
        | some l => some (p :: l)
        | none => none
      | _, _ => none

/-- The loop `for (it = begin(); it != end(); ++it)` started at `c`: the
cursors at which the body runs, one `++` after each. -/
def cursors : Nat → HashMap K V → iterator → Option (List iterator)
  | 0, _, _ => none
  | fuel + 1, m, c =>
    if c = end_ m then some []
    else
      match incr fuel m c with
      | some c1 =>
        match cursors fuel m c1 with
        | some l => some (c :: l)
        | none => none
      | none => none

/-- The Non-Empty Index invariant: `filled_cells` holds the index of a cell
exactly when the cell exists and its chain is not empty, and it holds no index
twice. -/
def FilledExact (m : HashMap K V) : Prop :=
  (∀ i, i ∈ m.filled_cells.map Prod.snd ↔ (i < capacity m ∧ (cellAt m i).nodes ≠ [])) ∧
  (m.filled_cells.map Prod.snd).Nodup

/-- Bucket indexing is safe in `m`: the capacity is at least
`default_capacity` and not zero, the bucket array has `capacity()` cells, the
index `get_hash` computes for any key is a position of the array, and so is
every index stored in `filled_cells`. -/
def IndexSafe (m : HashMap K V) : Prop :=
  default_capacity ≤ capacity m ∧ 0 < capacity m ∧ m.table_.length = capacity m ∧
  (∀ key, get_hash m key < m.table_.length) ∧
  ∀ n ∈ m.filled_cells, n.2 < capacity m

/-- A call of `insert` or `erase`, as a program issues them. -/
inductive Call (K V : Type) where
  | insert (key : K) (value : V)
  | erase (key : K)

/-- Keys passed to `insert` in a sequence of calls. -/
def insertedKeys : List (Call K V) → List K
  | [] => []
  | Call.insert key _ :: rest => key :: insertedKeys rest
  | Call.erase _ :: rest => insertedKeys rest

variable [DecidableEq K]

/-- Run a sequence of calls on `m`; the result is the table left, the number
of `insert` calls that added an entry (the key was not stored at the call) and
the number of `erase` calls that removed one (the key was stored). -/
def play (fuel : Nat) : List (Call K V) → HashMap K V → Option (HashMap K V × Nat × Nat)
  | [], m => some (m, 0, 0)
  | Call.insert key value :: rest, m =>
    match insert fuel m (key, value) with
    | none => none
    | some m1 =>
      match play fuel rest m1 with
      | none => none
      | some (r, a, e) => some (r, (if counts m key then a else a + 1), e)
  | Call.erase key :: rest, m =>
    match play fuel rest (erase m key) with
    | none => none
    | some (r, a, e) => some (r, a, (if counts m key then e + 1 else e))

/-- No key is passed to `insert` after it was passed to `erase`. -/
def noReinsert : List (Call K V) → Bool
  | [] => true
  | Call.insert _ _ :: rest => noReinsert rest
  | Call.erase key :: rest => decide (key ∉ insertedKeys rest) && noReinsert rest

/-- The set of keys stored in the table. -/
def storedKeys (m : HashMap K V) : Finset K :=
  ((entries m).map Prod.fst).toFinset

/-- The table `exThree` after `insert({3, 13})`, which ran the grow. -/
def exFour : HashMap Nat Nat :=
  { size_ := 4, cap_ := 16, hasher_ := exHash,
    filled_cells := [(3, 0), (4, 8), (5, 1), (6, 3)],
    table_ := [⟨some 3, [(0, 10)]⟩, ⟨some 5, [(1, 12)]⟩, ⟨none, []⟩, ⟨some 6, [(3, 13)]⟩,
               ⟨none, []⟩, ⟨none, []⟩, ⟨none, []⟩, ⟨none, []⟩,
               ⟨some 4, [(8, 11)]⟩, ⟨none, []⟩, ⟨none, []⟩, ⟨none, []⟩,
               ⟨none, []⟩, ⟨none, []⟩, ⟨none, []⟩, ⟨none, []⟩],
    fresh := 7 }

/-- The calls `insert({1, 10}); erase(1); insert({1, 10});`. -/
def exCalls : List (Call Nat Nat) :=
  [Call.insert 1 10, Call.erase 1, Call.insert 1 10]

/-- The calls `insert({1, 10}); insert({2, 20}); insert({1, 30}); erase(1);
erase(1);`. -/
def exCallsOnce : List (Call Nat Nat) :=
  [Call.insert 1 10, Call.insert 2 20, Call.insert 1 30, Call.erase 1, Call.erase 1]

end MoreDefs

section ListLemmas
variable {K V : Type}

theorem getD_set_cell (t : List (TableCell K V)) (h i : Nat) (c d : TableCell K V) :
    (t.set h c).getD i d = if i = h ∧ h < t.length then c else t.getD i d := by
  simp only [List.getD_eq_getElem?_getD, List.getElem?_set]
  by_cases hi : h = i
  · subst hi
    by_cases hl : h < t.length
    · simp [hl]
    · simp [hl, List.getElem?_eq_none (Nat.le_of_not_lt hl)]
  · have hi2 : ¬ i = h := fun e => hi e.symm
    simp [hi, hi2]

theorem sum_map_set (f : TableCell K V → Nat) (t : List (TableCell K V)) (h : Nat)
    (c d : TableCell K V) (hl : h < t.length) :
    ((t.set h c).map f).sum + f (t.getD h d) = (t.map f).sum + f c := by
  induction t generalizing h with
  | nil => simp at hl
  | cons a t ih =>
    cases h with
    | zero => simp [List.getD]; omega
    | succ h =>
      have := ih h (by simpa using hl)
      simp only [List.set_cons_succ, List.map_cons, List.sum_cons, List.getD_cons_succ]
      omega

theorem sum_map_ge (f : TableCell K V → Nat) (t : List (TableCell K V)) (i : Nat)
    (d : TableCell K V) (hd : f d = 0) :
    f (t.getD i d) ≤ (t.map f).sum := by
  induction t generalizing i with
  | nil => simp [hd]
  | cons a t ih =>
    cases i with
    | zero => simp
    | succ i =>
      have := ih i
      simp only [List.getD_cons_succ, List.map_cons, List.sum_cons]
      omega

variable [DecidableEq K]

theorem findPos_eq_none {key : K} {l : List (K × V)} :
    findPos key l = none ↔ ∀ p ∈ l, p.1 ≠ key := by
  induction l with
  | nil => simp [findPos]
  | cons p l ih =>
    by_cases hp : p.1 = key
    · simp [findPos, hp]
    · simp [findPos, hp, ih]

theorem findPos_eq_some {key : K} {l : List (K × V)} {i : Nat}
    (h : findPos key l = some i) : ∃ v, l[i]? = some (key, v) := by
  induction l generalizing i with
  | nil => simp [findPos] at h
  | cons p l ih =>
    by_cases hp : p.1 = key
    · simp [findPos, hp] at h
      subst h
      exact ⟨p.2, by simp [← hp]⟩
    · simp [findPos, hp] at h
      obtain ⟨j, hj, rfl⟩ := h
      obtain ⟨v, hv⟩ := ih hj
      exact ⟨v, by simpa using hv⟩

theorem findPos_of_mem {key : K} {v : V} {l : List (K × V)}
    (hn : (l.map Prod.fst).Nodup) (hm : (key, v) ∈ l) :
    ∃ i, findPos key l = some i ∧ l[i]? = some (key, v) := by
  induction l with
  | nil => simp at hm
  | cons p l ih =>
    simp only [List.map_cons, List.nodup_cons] at hn
    by_cases hp : p.1 = key
    · refine ⟨0, by simp [findPos, hp], ?_⟩
      rcases List.mem_cons.1 hm with e | hm2
      · simp [e]
      · exact absurd (List.mem_map_of_mem Prod.fst hm2) (by simpa [hp] using hn.1)
    · rcases List.mem_cons.1 hm with e | hm2
      · exact absurd (by rw [← e]) hp
      · obtain ⟨i, h1, h2⟩ := ih hn.2 hm2
        exact ⟨i + 1, by simp [findPos, hp, h1], by simpa using h2⟩

end ListLemmas

section FindLemmas
variable {K V : Type}

theorem cellAt_nodes_length_le (m : HashMap K V) (i : Nat) :
    (cellAt m i).nodes.length ≤ (m.table_.map (fun c => c.nodes.length)).sum :=
  sum_map_ge (fun c => c.nodes.length) m.table_ i ⟨none, []⟩ rfl

theorem cellAt_of_ge (m : HashMap K V) {i : Nat} (h : m.table_.length ≤ i) :
    cellAt m i = ⟨none, []⟩ := by
  unfold cellAt
  exact List.getD_eq_default _ _ h

theorem lt_of_nodes_ne_nil (m : HashMap K V) {i : Nat} (h : (cellAt m i).nodes ≠ []) :
    i < m.table_.length := by
  by_contra hc
  exact h (by rw [cellAt_of_ge m (Nat.le_of_not_lt hc)])

theorem Inv0.size_pos {m : HashMap K V} (hm : Inv0 m) {i : Nat}
    (h : (cellAt m i).nodes ≠ []) : 0 < m.size_ := by
  have h1 := cellAt_nodes_length_le m i
  have h2 : 0 < (cellAt m i).nodes.length := List.length_pos.2 h
  rw [hm.size_eq]; omega

theorem Inv0.cap_pos {m : HashMap K V} (hm : Inv0 m) : 0 < m.cap_ := by
  have := hm.cap_ge
  simp only [default_capacity] at this
  omega

theorem Inv0.hash_lt {m : HashMap K V} (hm : Inv0 m) (key : K) :
    get_hash m key < m.table_.length := by
  rw [hm.len_eq]; exact Nat.mod_lt _ hm.cap_pos

theorem Inv0.found_ne_end {m : HashMap K V} (hm : Inv0 m) {h pos : Nat}
    (hp : pos < (cellAt m h).nodes.length) : (⟨h, pos⟩ : iterator) ≠ end_ m := by
  have hne : (cellAt m h).nodes ≠ [] := List.length_pos.1 (by omega)
  have hs := hm.size_pos hne
  intro e
  simp only [end_, size, hs, gt_iff_lt, if_true, iterator.mk.injEq] at e
  obtain ⟨e1, e2⟩ := e
  rw [← e1] at e2
  omega

variable [DecidableEq K]

theorem Inv0.find_of_has {m : HashMap K V} (hm : Inv0 m) {key : K} {v : V}
    (h : Has m key v) : find m key ≠ end_ m ∧ deref m (find m key) = some (key, v) := by
  obtain ⟨i, h1, h2⟩ := findPos_of_mem (hm.keys_nodup _) h
  have hi : i < (cellAt m (get_hash m key)).nodes.length := by
    by_contra hc
    rw [List.getElem?_eq_none (Nat.le_of_not_lt hc)] at h2
    cases h2
  have hf : find m key = ⟨get_hash m key, i⟩ := by simp [find, h1]
  rw [hf]
  exact ⟨hm.found_ne_end hi, by simpa [deref] using h2⟩

theorem find_of_not_mem {m : HashMap K V} {key : K}
    (h : ∀ v, ¬ Has m key v) : find m key = end_ m := by
  have : findPos key (cellAt m (get_hash m key)).nodes = none := by
    rw [findPos_eq_none]
    rintro ⟨k, v⟩ hp hk
    simp only at hk
    subst hk
    exact h v hp
  simp [find, this]

theorem Inv0.find_ne_end_iff {m : HashMap K V} (hm : Inv0 m) (key : K) :
    find m key ≠ end_ m ↔ ∃ v, Has m key v := by
  constructor
  · intro h
    by_contra hc
    exact h (find_of_not_mem (fun v hv => hc ⟨v, hv⟩))
  · rintro ⟨v, hv⟩
    exact (hm.find_of_has hv).1

theorem Inv0.counts_iff {m : HashMap K V} (hm : Inv0 m) (key : K) :
    counts m key = true ↔ ∃ v, Has m key v := by
  rw [← hm.find_ne_end_iff]
  simp [counts]

theorem Inv0.counts_false_iff {m : HashMap K V} (hm : Inv0 m) (key : K) :
    counts m key = false ↔ ∀ v, ¬ Has m key v := by
  rw [← Bool.not_eq_true, hm.counts_iff]
  simp

theorem Inv0.has_unique {m : HashMap K V} (hm : Inv0 m) {key : K} {v w : V}
    (h1 : Has m key v) (h2 : Has m key w) : v = w := by
  have a := (hm.find_of_has h1).2
  have b := (hm.find_of_has h2).2
  rw [a] at b
  simpa using b

theorem Inv0.deref_find_iff {m : HashMap K V} (hm : Inv0 m) (key : K) (v : V) :
    (find m key ≠ end_ m ∧ deref m (find m key) = some (key, v)) ↔ Has m key v := by
  constructor
  · rintro ⟨h1, h2⟩
    obtain ⟨w, hw⟩ := (hm.find_ne_end_iff key).1 h1
    have := (hm.find_of_has hw).2
    rw [h2] at this
    simp at this
    rw [this]; exact hw
  · exact hm.find_of_has

theorem Inv0.at_of_has {m : HashMap K V} (hm : Inv0 m) {key : K} {v : V}
    (h : Has m key v) : at_ m key = .ok v := by
  obtain ⟨h1, h2⟩ := hm.find_of_has h
  simp [at_, h1, h2]

theorem at_of_not_has {m : HashMap K V} {key : K}
    (h : ∀ v, ¬ Has m key v) : at_ m key = .error .out_of_range := by
  simp [at_, find_of_not_mem h]

theorem Inv0.at_congr {m m1 : HashMap K V} (hm : Inv0 m) (hm1 : Inv0 m1) {key : K}
    (h : ∀ v, Has m1 key v ↔ Has m key v) : at_ m1 key = at_ m key := by
  by_cases hh : ∃ v, Has m key v
  · obtain ⟨v, hv⟩ := hh
    rw [hm.at_of_has hv, hm1.at_of_has ((h v).2 hv)]
  · have h0 : ∀ v, ¬ Has m key v := fun v hv => hh ⟨v, hv⟩
    rw [at_of_not_has h0, at_of_not_has (fun v hv => h0 v ((h v).1 hv))]

end FindLemmas

section Push
variable {K V : Type} [DecidableEq K]

theorem push_node_cap (m : HashMap K V) (node : K × V) :
    (push_node m node).cap_ = m.cap_ := by
  simp only [push_node]; split <;> rfl

theorem push_node_hasher (m : HashMap K V) (node : K × V) :
    (push_node m node).hasher_ = m.hasher_ := by
  simp only [push_node]; split <;> rfl

theorem push_node_size (m : HashMap K V) (node : K × V) :
    (push_node m node).size_ = m.size_ + 1 := by
  simp only [push_node]; split <;> rfl

theorem push_node_get_hash (m : HashMap K V) (node : K × V) (key : K) :
    get_hash (push_node m node) key = get_hash m key := by
  simp [get_hash, capacity, push_node_cap, push_node_hasher]

theorem push_node_table (m : HashMap K V) (node : K × V) :
    (push_node m node).table_ = m.table_.set (get_hash m node.1)
      ⟨if (cellAt m (get_hash m node.1)).nodes.isEmpty then some m.fresh
        else (cellAt m (get_hash m node.1)).it,
       (cellAt m (get_hash m node.1)).nodes ++ [node]⟩ := by
  simp only [push_node]; split <;> simp_all

theorem push_node_filled (m : HashMap K V) (node : K × V) :
    (push_node m node).filled_cells =
      if (cellAt m (get_hash m node.1)).nodes.isEmpty then
        m.filled_cells ++ [(m.fresh, get_hash m node.1)]
      else m.filled_cells := by
  simp only [push_node]; split <;> simp_all

theorem push_node_fresh (m : HashMap K V) (node : K × V) :
    m.fresh ≤ (push_node m node).fresh := by
  simp only [push_node]; split <;> simp

theorem cellAt_push_node (m : HashMap K V) (node : K × V) (i : Nat)
    (hl : get_hash m node.1 < m.table_.length) :
    cellAt (push_node m node) i =
      if i = get_hash m node.1 then
        ⟨if (cellAt m (get_hash m node.1)).nodes.isEmpty then some m.fresh
          else (cellAt m (get_hash m node.1)).it,
         (cellAt m (get_hash m node.1)).nodes ++ [node]⟩
      else cellAt m i := by
  unfold cellAt
  rw [push_node_table, getD_set_cell]
  simp [hl, cellAt]

theorem has_push_node (m : HashMap K V) (node : K × V) (key : K) (v : V)
    (hl : get_hash m node.1 < m.table_.length) :
    Has (push_node m node) key v ↔ Has m key v ∨ (key, v) = node := by
  unfold Has
  rw [push_node_get_hash, cellAt_push_node m node _ hl]
  by_cases hk : get_hash m key = get_hash m node.1
  · simp [hk]
  · simp only [hk, if_false]
    constructor
    · exact Or.inl
    · rintro (h | h)
      · exact h
      · exact absurd (by rw [← h]) hk

theorem inv0_push_node {m : HashMap K V} (hm : Inv0 m) (node : K × V)
    (habs : ∀ v, ¬ Has m node.1 v) : Inv0 (push_node m node) := by
  have hl := hm.hash_lt node.1
  have hcell := fun i => cellAt_push_node m node i hl
  by_cases he : (cellAt m (get_hash m node.1)).nodes = []
  · -- the cell was empty: it is linked at the back of `filled_cells`
    have hnot : get_hash m node.1 ∉ m.filled_cells.map Prod.snd := by
      rw [hm.filled_iff]; simp [he]
    have hfil : (push_node m node).filled_cells =
        m.filled_cells ++ [(m.fresh, get_hash m node.1)] := by
      rw [push_node_filled]; simp [he]
    refine ⟨?_, ?_, ?_, ?_, ?_, ?_, ?_, ?_, ?_, ?_⟩
    · rw [push_node_table, List.length_set, push_node_cap]; exact hm.len_eq
    · rw [push_node_cap]; exact hm.cap_ge
    · rw [push_node_size, push_node_table]
      have := sum_map_set (fun c => c.nodes.length) m.table_ (get_hash m node.1)
        ⟨if (cellAt m (get_hash m node.1)).nodes.isEmpty then some m.fresh
          else (cellAt m (get_hash m node.1)).it,
         (cellAt m (get_hash m node.1)).nodes ++ [node]⟩ ⟨none, []⟩ hl
      have h2 := hm.size_eq
      simp only [List.length_append, List.length_singleton] at this
      have h3 : (m.table_.getD (get_hash m node.1) ⟨none, []⟩).nodes.length = 0 := by
        have : (cellAt m (get_hash m node.1)).nodes.length = 0 := by simp [he]
        simpa [cellAt] using this
      have h4 : (cellAt m (get_hash m node.1)).nodes.length = 0 := by simp [he]
      omega
    · intro i p hp
      rw [push_node_hasher, push_node_cap]
      rw [hcell] at hp
      by_cases hi : i = get_hash m node.1
      · simp only [hi, if_true, he, List.nil_append, List.mem_singleton] at hp
        rw [hp, hi]; rfl
      · simp only [hi, if_false] at hp
        exact hm.hash_ok i p hp
    · intro i
      rw [hcell]
      by_cases hi : i = get_hash m node.1
      · simp [hi, he]
      · simp only [hi, if_false]; exact hm.keys_nodup i
    · rw [hfil, List.map_append, List.nodup_append]
      refine ⟨hm.ids_nodup, by simp, ?_⟩
      intro a ha hb
      simp only [List.map_cons, List.map_nil, List.mem_singleton] at hb
      obtain ⟨n, hn, rfl⟩ := List.mem_map.1 ha
      have := hm.fresh_gt n hn
      omega
    · rw [hfil, List.map_append, List.nodup_append]
      refine ⟨hm.idx_nodup, by simp, ?_⟩
      intro a ha hb
      simp only [List.map_cons, List.map_nil, List.mem_singleton] at hb
      subst hb
      exact hnot ha
    · intro i
      rw [hfil, hcell]
      by_cases hi : i = get_hash m node.1
      · simp [hi]
      · simp only [hi, if_false, List.map_append, List.mem_append, List.map_cons,
          List.map_nil, List.mem_singleton, or_false]
        exact hm.filled_iff i
    · intro n hn
      rw [hfil, List.mem_append] at hn
      rw [hcell]
      rcases hn with hn | hn
      · have : n.2 ≠ get_hash m node.1 := by
          intro e
          exact hnot (e ▸ List.mem_map_of_mem Prod.snd hn)
        simp only [this, if_false]
        exact hm.backref n hn
      · simp only [List.mem_singleton] at hn
        subst hn
        simp [he]
    · intro n hn
      rw [hfil, List.mem_append] at hn
      have hf : (push_node m node).fresh = m.fresh + 1 := by
        simp [push_node, he]
      rw [hf]
      rcases hn with hn | hn
      · have := hm.fresh_gt n hn; omega
      · simp only [List.mem_singleton] at hn
        subst hn; simp
  · -- the cell already holds entries: `filled_cells` is unchanged
    have hin : get_hash m node.1 ∈ m.filled_cells.map Prod.snd := by
      rw [hm.filled_iff]; exact he
    have hfil : (push_node m node).filled_cells = m.filled_cells := by
      rw [push_node_filled]; simp [he]
    refine ⟨?_, ?_, ?_, ?_, ?_, ?_, ?_, ?_, ?_, ?_⟩
    · rw [push_node_table, List.length_set, push_node_cap]; exact hm.len_eq
    · rw [push_node_cap]; exact hm.cap_ge
    · rw [push_node_size, push_node_table]
      have := sum_map_set (fun c => c.nodes.length) m.table_ (get_hash m node.1)
        ⟨if (cellAt m (get_hash m node.1)).nodes.isEmpty then some m.fresh
          else (cellAt m (get_hash m node.1)).it,
         (cellAt m (get_hash m node.1)).nodes ++ [node]⟩ ⟨none, []⟩ hl
      have h2 := hm.size_eq
      simp only [List.length_append, List.length_singleton] at this
      have h3 : (m.table_.getD (get_hash m node.1) ⟨none, []⟩).nodes.length
          = (cellAt m (get_hash m node.1)).nodes.length := rfl
      omega
    · intro i p hp
      rw [push_node_hasher, push_node_cap]
      rw [hcell] at hp
      by_cases hi : i = get_hash m node.1
      · simp only [hi, if_true, List.mem_append, List.mem_singleton] at hp
        rcases hp with hp | hp
        · rw [hi]; exact hm.hash_ok _ p hp
        · rw [hp, hi]; rfl
      · simp only [hi, if_false] at hp
        exact hm.hash_ok i p hp
    · intro i
      rw [hcell]
      by_cases hi : i = get_hash m node.1
      · simp only [hi, if_true, List.map_append, List.map_cons, List.map_nil]
        rw [List.nodup_append]
        refine ⟨hm.keys_nodup _, by simp, ?_⟩
        intro a ha hb
        simp only [List.mem_singleton] at hb
        subst hb
        obtain ⟨p, hp, hpe⟩ := List.mem_map.1 ha
        apply habs p.2
        have hq : (node.1, p.2) = p := by rw [← hpe]
        unfold Has
        rw [hq]
        exact hp
      · simp only [hi, if_false]; exact hm.keys_nodup i
    · rw [hfil]; exact hm.ids_nodup
    · rw [hfil]; exact hm.idx_nodup
    · intro i
      rw [hfil, hcell]
      by_cases hi : i = get_hash m node.1
      · simp [hi, hin]
      · simp only [hi, if_false]
        exact hm.filled_iff i
    · intro n hn
      rw [hfil] at hn
      rw [hcell]
      by_cases hi : n.2 = get_hash m node.1
      · simp only [hi, if_true]
        have := hm.backref n hn
        rw [hi] at this
        simp [he, this]
      · simp only [hi, if_false]
        exact hm.backref n hn
    · intro n hn
      rw [hfil] at hn
      have := hm.fresh_gt n hn
      have := push_node_fresh m node
      omega

end Push

section Traversal
variable {K V : Type}

theorem listNext_mid (pre post : List (Nat × Nat)) (n : Nat × Nat)
    (hn : ((pre ++ n :: post).map Prod.fst).Nodup) :
    listNext (pre ++ n :: post) (some n.1) = post.head? := by
  induction pre with
  | nil => simp [listNext]
  | cons a pre ih =>
    simp only [List.cons_append, List.map_cons, List.nodup_cons] at hn
    have hne : a.1 ≠ n.1 := by
      intro e
      apply hn.1
      rw [e]
      exact List.mem_map_of_mem Prod.fst (by simp)
    simp only [List.cons_append, listNext, Option.some.injEq, hne, if_false]
    exact ih hn.2

theorem sum_map_eq_sum_range (f : TableCell K V → Nat) (t : List (TableCell K V))
    (d : TableCell K V) :
    (t.map f).sum = ∑ i in Finset.range t.length, f (t.getD i d) := by
  induction t with
  | nil => simp
  | cons a t ih =>
    rw [List.length_cons, Finset.sum_range_succ', List.map_cons, List.sum_cons, ih]
    simp [Nat.add_comm]

theorem Inv0.entries_length {m : HashMap K V} (hm : Inv0 m) :
    (entries m).length = m.size_ := by
  have h1 : (entries m).length
      = ((m.filled_cells.map Prod.snd).map (fun i => (cellAt m i).nodes.length)).sum := by
    simp [entries, List.length_flatMap, Function.comp_def]
  rw [h1, ← List.sum_toFinset _ hm.idx_nodup, hm.size_eq,
    sum_map_eq_sum_range _ _ ⟨none, []⟩]
  apply Finset.sum_subset
  · intro i hi
    rw [List.mem_toFinset, hm.filled_iff] at hi
    exact Finset.mem_range.2 (lt_of_nodes_ne_nil m hi)
  · intro i _ hi
    rw [List.mem_toFinset, hm.filled_iff] at hi
    have : (cellAt m i).nodes = [] := by
      by_contra hc
      exact hi hc
    simp [this]

theorem Inv0.mem_entries {m : HashMap K V} (hm : Inv0 m) (p : K × V) :
    p ∈ entries m ↔ Has m p.1 p.2 := by
  unfold entries Has
  rw [List.mem_flatMap]
  constructor
  · rintro ⟨n, _, hp⟩
    have := hm.hash_ok n.2 p hp
    simp only [get_hash, capacity, this]
    exact hp
  · intro hp
    have hne : (cellAt m (get_hash m p.1)).nodes ≠ [] := List.ne_nil_of_mem hp
    obtain ⟨n, hn, he⟩ := List.mem_map.1 ((hm.filled_iff _).2 hne)
    exact ⟨n, hn, by rw [he]; exact hp⟩

theorem Inv0.entries_nodup {m : HashMap K V} (hm : Inv0 m) :
    ((entries m).map Prod.fst).Nodup := by
  unfold entries
  rw [List.map_flatMap, List.nodup_flatMap]
  refine ⟨fun n _ => hm.keys_nodup n.2, ?_⟩
  have h := hm.idx_nodup
  rw [List.Nodup, List.pairwise_map] at h
  refine h.imp ?_
  intro a b hab k hka hkb
  obtain ⟨p, hp, rfl⟩ := List.mem_map.1 hka
  obtain ⟨q, hq, hqe⟩ := List.mem_map.1 hkb
  have h1 := hm.hash_ok a.2 p hp
  have h2 := hm.hash_ok b.2 q hq
  rw [hqe] at h2
  exact hab (h1.symm.trans h2)

theorem collect_end (m : HashMap K V) (fuel : Nat) :
    collect (fuel + 1) m (end_ m) = some [] := by
  simp [collect]

theorem collect_step {m : HashMap K V} {fuel : Nat} {c c1 : iterator} {p : K × V}
    {l : List (K × V)} (hne : c ≠ end_ m) (hd : deref m c = some p)
    (hi : incr fuel m c = some c1) (hl : collect fuel m c1 = some l) :
    collect (fuel + 1) m c = some (p :: l) := by
  simp [collect, hne, hd, hi, hl]

theorem back_append_cons (pre : List (Nat × Nat)) (n : Nat × Nat) :
    back (pre ++ [n]) = n.2 := by
  simp [back]

theorem Inv0.collect_from {m : HashMap K V} (hm : Inv0 m) :
    ∀ (fuel : Nat) (pre post : List (Nat × Nat)) (n : Nat × Nat) (j : Nat),
      m.filled_cells = pre ++ n :: post →
      j < (cellAt m n.2).nodes.length →
      ((cellAt m n.2).nodes.drop j ++
          post.flatMap (fun n => (cellAt m n.2).nodes)).length + 1 ≤ fuel →
      collect fuel m ⟨n.2, j⟩ =
        some ((cellAt m n.2).nodes.drop j ++
          post.flatMap (fun n => (cellAt m n.2).nodes)) := by
  intro fuel
  induction fuel with
  | zero => intro pre post n j _ _ hf; omega
  | succ f ih =>
    intro pre post n j hfil hj hf
    have hne := hm.found_ne_end hj
    have hd : deref m ⟨n.2, j⟩ = some ((cellAt m n.2).nodes[j]) := by
      simp [deref, List.getElem?_eq_getElem hj]
    have hdrop : (cellAt m n.2).nodes.drop j
        = (cellAt m n.2).nodes[j] :: (cellAt m n.2).nodes.drop (j + 1) :=
      List.drop_eq_getElem_cons hj
    rw [hdrop] at hf ⊢
    simp only [List.cons_append, List.length_cons] at hf
    by_cases hlast : j + 1 = (cellAt m n.2).nodes.length
    · -- last entry of the chain: walk to the next linked cell
      have hdn : (cellAt m n.2).nodes.drop (j + 1) = [] := by
        rw [List.drop_eq_nil_iff]; omega
      obtain ⟨f1, rfl⟩ : ∃ f1, f = f1 + 1 := ⟨f - 1, by omega⟩
      have hnx : listNext m.filled_cells (cellAt m n.2).it = post.head? := by
        rw [hm.backref n (by rw [hfil]; simp), hfil]
        exact listNext_mid pre post n (by rw [← hfil]; exact hm.ids_nodup)
      cases post with
      | nil =>
        have hinc : incr (f1 + 1) m ⟨n.2, j⟩ = some (end_ m) := by
          have hs : 0 < m.size_ := hm.size_pos (List.ne_nil_of_length_pos (Nat.lt_of_le_of_lt (Nat.zero_le _) hj))
          have hb : back m.filled_cells = n.2 := by rw [hfil]; exact back_append_cons pre n
          simp [incr, hlast, skip, hnx, end_, size, hs, hb]
        rw [collect_step hne hd hinc (collect_end m f1)]
        simp [hdn]
      | cons n1 post1 =>
        have hn1 : (cellAt m n1.2).nodes ≠ [] := by
          rw [← hm.filled_iff]
          exact List.mem_map_of_mem Prod.snd (by rw [hfil]; simp)
        have hinc : incr (f1 + 1) m ⟨n.2, j⟩ = some ⟨n1.2, 0⟩ := by
          simp [incr, hlast, skip, hnx, hn1]
        have hrec := ih (pre ++ [n]) post1 n1 0 (by rw [hfil]; simp)
          (List.length_pos.2 hn1)
          (by
            simp only [hdn, List.nil_append, List.flatMap_cons, List.length_append,
              List.drop_zero] at hf ⊢
            exact Nat.le_of_succ_le_succ hf)
        simp only [List.drop_zero] at hrec
        rw [collect_step hne hd hinc hrec]
        simp [hdn]
    · have hinc : incr f m ⟨n.2, j⟩ = some ⟨n.2, j + 1⟩ := by
        simp [incr, hlast]
      have hrec := ih pre post n (j + 1) hfil (by omega) (by omega)
      rw [collect_step hne hd hinc hrec]
      rfl

theorem Inv0.collect_begin {m : HashMap K V} (hm : Inv0 m) (fuel : Nat)
    (hf : m.size_ + 1 ≤ fuel) : collect fuel m (begin m) = some (entries m) := by
  obtain ⟨f, rfl⟩ : ∃ f, fuel = f + 1 := ⟨fuel - 1, by omega⟩
  have hlen := hm.entries_length
  cases hfil : m.filled_cells with
  | nil =>
    have he : entries m = [] := by simp [entries, hfil]
    have hs : m.size_ = 0 := by rw [← hlen, he]; rfl
    have hb : begin m = end_ m := by simp [begin, size, hs]
    rw [hb, he]
    exact collect_end m f
  | cons n post =>
    have hn : (cellAt m n.2).nodes ≠ [] := by
      rw [← hm.filled_iff]
      exact List.mem_map_of_mem Prod.snd (by rw [hfil]; simp)
    have hs := hm.size_pos hn
    have hb : begin m = ⟨n.2, 0⟩ := by simp [begin, size, hs, front, hfil]
    have he : entries m = (cellAt m n.2).nodes.drop 0 ++
        post.flatMap (fun n => (cellAt m n.2).nodes) := by
      simp [entries, hfil]
    rw [hb, he]
    apply hm.collect_from (f + 1) [] post n 0 (by simpa using hfil) (List.length_pos.2 hn)
    rw [← he, hlen]
    exact hf

end Traversal

section Clear
variable {K V : Type}

theorem clearLoop_length (l : List (Nat × Nat)) (t : List (TableCell K V)) :
    (l.foldl (fun t n => clearCell t n.2) t).length = t.length := by
  induction l generalizing t with
  | nil => rfl
  | cons n l ih => rw [List.foldl_cons, ih]; simp [clearCell]

theorem clearLoop_nodes (l : List (Nat × Nat)) (t : List (TableCell K V)) (i : Nat) :
    ((l.foldl (fun t n => clearCell t n.2) t).getD i ⟨none, []⟩).nodes =
      if i ∈ l.map Prod.snd then [] else (t.getD i ⟨none, []⟩).nodes := by
  induction l generalizing t with
  | nil => simp
  | cons n l ih =>
    rw [List.foldl_cons, ih]
    by_cases hi : i ∈ l.map Prod.snd
    · simp only [hi, if_true, List.map_cons, List.mem_cons, or_true]
    · have hi2 : ¬ ∃ a, (a, i) ∈ l := by simpa using hi
      simp only [hi, if_false, clearCell, getD_set_cell, List.map_cons, List.mem_cons, or_false]
      by_cases hn : i = n.2
      · subst hn
        by_cases hl : n.2 < t.length
        · simp [hl]
        · simp [hl, List.getElem?_eq_none (Nat.le_of_not_lt hl)]
      · simp [hn]

theorem allEmpty_resize {t : List (TableCell K V)} (h : AllEmpty t) (n : Nat) :
    AllEmpty (resize t n) := by
  intro i
  have hi := h i
  simp only [List.getD_eq_getElem?_getD] at hi ⊢
  unfold resize
  by_cases h1 : i < (t.take n).length
  · rw [List.getElem?_append_left h1, List.getElem?_take]
    have : i < n := by simp at h1; omega
    simpa [this] using hi
  · rw [List.getElem?_append_right (Nat.le_of_not_lt h1), List.getElem?_replicate]
    split <;> rfl

theorem resize_length (t : List (TableCell K V)) (n : Nat) : (resize t n).length = n := by
  simp [resize]; omega

theorem allEmpty_sum {t : List (TableCell K V)} (h : AllEmpty t) :
    (t.map (fun c => c.nodes.length)).sum = 0 := by
  rw [sum_map_eq_sum_range _ _ ⟨none, []⟩]
  apply Finset.sum_eq_zero
  intro i _
  show (t.getD i ⟨none, []⟩).nodes.length = 0
  rw [h i]; rfl

theorem inv0_of_allEmpty {m : HashMap K V} (hf : m.filled_cells = []) (hs : m.size_ = 0)
    (ht : AllEmpty m.table_) (hl : m.table_.length = m.cap_)
    (hc : default_capacity ≤ m.cap_) : Inv0 m := by
  have hcell : ∀ i, (cellAt m i).nodes = [] := ht
  refine ⟨hl, hc, ?_, ?_, ?_, ?_, ?_, ?_, ?_, ?_⟩
  · rw [hs, allEmpty_sum ht]
  · intro i p hp; rw [hcell] at hp; cases hp
  · intro i; rw [hcell]; exact List.nodup_nil
  · rw [hf]; exact List.nodup_nil
  · rw [hf]; exact List.nodup_nil
  · intro i; rw [hf, hcell]; simp
  · intro n hn; rw [hf] at hn; cases hn
  · intro n hn; rw [hf] at hn; cases hn

theorem Inv0.clearLoop_allEmpty {m : HashMap K V} (hm : Inv0 m) :
    AllEmpty (m.filled_cells.foldl (fun t n => clearCell t n.2) m.table_) := by
  intro i
  rw [clearLoop_nodes]
  by_cases hi : i ∈ m.filled_cells.map Prod.snd
  · simp only [hi, if_true]
  · simp only [hi, if_false]
    have := (hm.filled_iff i).not.1 hi
    simpa [cellAt] using this

theorem clear_filled (m : HashMap K V) : (clear m).filled_cells = [] := rfl
theorem clear_size (m : HashMap K V) : (clear m).size_ = 0 := rfl
theorem clear_cap (m : HashMap K V) : (clear m).cap_ = default_capacity := rfl
theorem clear_hasher (m : HashMap K V) : (clear m).hasher_ = m.hasher_ := rfl
theorem clear_table (m : HashMap K V) : (clear m).table_ =
    resize (m.filled_cells.foldl (fun t n => clearCell t n.2) m.table_) default_capacity := rfl

theorem Inv0.clear_allEmpty {m : HashMap K V} (hm : Inv0 m) : AllEmpty (clear m).table_ := by
  rw [clear_table]; exact allEmpty_resize hm.clearLoop_allEmpty _

theorem inv0_clear {m : HashMap K V} (hm : Inv0 m) : Inv0 (clear m) :=
  inv0_of_allEmpty (clear_filled m) (clear_size m) hm.clear_allEmpty
    (by rw [clear_table, resize_length, clear_cap]) (by rw [clear_cap])

theorem reset_filled (m : HashMap K V) (c : Nat) : (reset m c).filled_cells = [] := rfl
theorem reset_size (m : HashMap K V) (c : Nat) : (reset m c).size_ = 0 := rfl
theorem reset_cap (m : HashMap K V) (c : Nat) : (reset m c).cap_ = c := rfl
theorem reset_hasher (m : HashMap K V) (c : Nat) : (reset m c).hasher_ = m.hasher_ := rfl
theorem reset_table (m : HashMap K V) (c : Nat) :
    (reset m c).table_ = resize (clear m).table_ c := rfl

theorem Inv0.reset_allEmpty {m : HashMap K V} (hm : Inv0 m) (c : Nat) :
    AllEmpty (reset m c).table_ := by
  rw [reset_table]; exact allEmpty_resize hm.clear_allEmpty _

theorem inv0_reset {m : HashMap K V} (hm : Inv0 m) {c : Nat} (hc : default_capacity ≤ c) :
    Inv0 (reset m c) :=
  inv0_of_allEmpty (reset_filled m c) (reset_size m c) (hm.reset_allEmpty c)
    (by rw [reset_table, resize_length, reset_cap]) (by rw [reset_cap]; exact hc)

theorem not_has_of_allEmpty {m : HashMap K V} (h : AllEmpty m.table_) (key : K) (v : V) :
    ¬ Has m key v := by
  unfold Has
  have : (cellAt m (get_hash m key)).nodes = [] := h _
  rw [this]
  simp

end Clear

section Fuel
variable {K V : Type}

theorem skip_mono {m : HashMap K V} :
    ∀ (fuel : Nat) (c r : iterator), skip fuel m c = some r → skip (fuel + 1) m c = some r := by
  intro fuel
  induction fuel with
  | zero => intro c r h; simp [skip] at h
  | succ f ih =>
    intro c r h
    rw [skip] at h ⊢
    cases hn : listNext m.filled_cells (cellAt m c.cell).it with
    | none => simpa [hn] using h
    | some n =>
      simp only [hn] at h ⊢
      by_cases he : (cellAt m n.2).nodes.isEmpty = true
      · simp only [he, if_true] at h ⊢
        exact ih _ _ h
      · simpa [he] using h

theorem incr_mono {m : HashMap K V} {fuel : Nat} {c r : iterator}
    (h : incr fuel m c = some r) : incr (fuel + 1) m c = some r := by
  unfold incr at h ⊢
  split
  · rename_i hc
    rw [if_pos hc] at h
    exact skip_mono _ _ _ h
  · rename_i hc
    rw [if_neg hc] at h
    exact h

theorem collect_mono {m : HashMap K V} :
    ∀ (fuel : Nat) (c : iterator) (l : List (K × V)),
      collect fuel m c = some l → collect (fuel + 1) m c = some l := by
  intro fuel
  induction fuel with
  | zero => intro c l h; simp [collect] at h
  | succ f ih =>
    intro c l h
    by_cases he : c = end_ m
    · rw [collect] at h ⊢
      simpa [he] using h
    · rw [collect] at h
      simp only [he, if_false] at h
      cases hd : deref m c with
      | none => simp [hd] at h
      | some p =>
        cases hi : incr f m c with
        | none => simp [hd, hi] at h
        | some c1 =>
          cases hc : collect f m c1 with
          | none => simp [hd, hi, hc] at h
          | some l1 =>
            simp only [hd, hi, hc, Option.some.injEq] at h
            rw [← h]
            exact collect_step he hd (incr_mono hi) (ih _ _ hc)

theorem foldlM_mono {ins ins1 : HashMap K V → K × V → Option (HashMap K V)}
    (hins : ∀ m p r, ins m p = some r → ins1 m p = some r) :
    ∀ (l : List (K × V)) (m r : HashMap K V),
      l.foldlM ins m = some r → l.foldlM ins1 m = some r := by
  intro l
  induction l with
  | nil => intro m r h; simpa using h
  | cons p l ih =>
    intro m r h
    rw [List.foldlM_cons] at h ⊢
    cases hp : ins m p with
    | none => simp [hp] at h
    | some m1 =>
      rw [hp] at h
      rw [hins m p m1 hp]
      exact ih m1 r h

theorem rehash_mono {ins ins1 : HashMap K V → K × V → Option (HashMap K V)}
    (hins : ∀ m p r, ins m p = some r → ins1 m p = some r)
    {fuel : Nat} {m r : HashMap K V} {c : Nat}
    (h : rehash ins fuel m c = some r) : rehash ins1 (fuel + 1) m c = some r := by
  unfold rehash at h ⊢
  cases hc : collect fuel m (begin m) with
  | none => simp [hc] at h
  | some tmp =>
    rw [hc] at h
    rw [collect_mono _ _ _ hc]
    exact foldlM_mono hins _ _ _ h

variable [DecidableEq K]

theorem insert_succ (fuel : Nat) (m : HashMap K V) (p : K × V) :
    insert (fuel + 1) m p =
      if counts m p.1 then some m
      else if (push_node m p).size_ * rehash_enlarge_coaf ≥ (push_node m p).cap_ then
        rehash (insert fuel) fuel (push_node m p) (2 * (push_node m p).cap_)
      else some (push_node m p) := by
  rw [insert]

theorem insert_mono :
    ∀ (fuel : Nat) (m r : HashMap K V) (p : K × V),
      insert fuel m p = some r → insert (fuel + 1) m p = some r := by
  intro fuel
  induction fuel with
  | zero => intro m r p h; simp [insert] at h
  | succ f ih =>
    intro m r p h
    rw [insert_succ] at h ⊢
    by_cases hc : counts m p.1 = true
    · rw [if_pos hc] at h ⊢
      exact h
    · rw [if_neg hc] at h ⊢
      by_cases hg : (push_node m p).size_ * rehash_enlarge_coaf ≥ (push_node m p).cap_
      · rw [if_pos hg] at h ⊢
        exact rehash_mono (fun m p r => ih m r p) h
      · rw [if_neg hg] at h ⊢
        exact h

theorem insert_mono_le {fuel fuel1 : Nat} {m r : HashMap K V} {p : K × V}
    (hle : fuel ≤ fuel1) (h : insert fuel m p = some r) : insert fuel1 m p = some r := by
  induction hle with
  | refl => exact h
  | step _ ih => exact insert_mono _ _ _ _ ih

theorem insert_present {m : HashMap K V} {p : K × V} (fuel : Nat)
    (h : counts m p.1 = true) : insert (fuel + 1) m p = some m := by
  rw [insert_succ, if_pos h]

theorem insert_no_grow {m : HashMap K V} {p : K × V} (fuel : Nat)
    (h : counts m p.1 = false) (hl : (m.size_ + 1) * rehash_enlarge_coaf < m.cap_) :
    insert (fuel + 1) m p = some (push_node m p) := by
  have : ¬ (push_node m p).size_ * rehash_enlarge_coaf ≥ (push_node m p).cap_ := by
    rw [push_node_size, push_node_cap]; omega
  rw [insert_succ, if_neg (by simp [h]), if_neg this]

theorem insert_grow {m : HashMap K V} {p : K × V} (fuel : Nat)
    (h : counts m p.1 = false) (hl : m.cap_ ≤ (m.size_ + 1) * rehash_enlarge_coaf) :
    insert (fuel + 1) m p =
      rehash (insert fuel) fuel (push_node m p) (2 * m.cap_) := by
  have : (push_node m p).size_ * rehash_enlarge_coaf ≥ (push_node m p).cap_ := by
    rw [push_node_size, push_node_cap]; omega
  rw [insert_succ, if_neg (by simp [h]), if_pos this, push_node_cap]

theorem foldlM_insert (fuel : Nat) :
    ∀ (l : List (K × V)) (m : HashMap K V), Inv0 m → (l.map Prod.fst).Nodup →
      (∀ p ∈ l, ∀ v, ¬ Has m p.1 v) →
      (m.size_ + l.length) * rehash_enlarge_coaf < m.cap_ →
      ∃ r, l.foldlM (insert (fuel + 1)) m = some r ∧ Inv0 r ∧ r.cap_ = m.cap_ ∧
        r.hasher_ = m.hasher_ ∧ r.size_ = m.size_ + l.length ∧
        ∀ k v, Has r k v ↔ Has m k v ∨ (k, v) ∈ l := by
  intro l
  induction l with
  | nil =>
    intro m hm _ _ _
    exact ⟨m, by simp, hm, rfl, rfl, rfl, by simp⟩
  | cons p l ih =>
    intro m hm hnd habs hload
    simp only [List.map_cons, List.nodup_cons] at hnd
    simp only [List.length_cons] at hload
    have hp : ∀ v, ¬ Has m p.1 v := habs p (by simp)
    have hstep : insert (fuel + 1) m p = some (push_node m p) :=
      insert_no_grow fuel ((hm.counts_false_iff _).2 hp) (by
        simp only [rehash_enlarge_coaf] at hload ⊢; omega)
    have hm1 := inv0_push_node hm p hp
    have hhas := fun k v => has_push_node m p k v (hm.hash_lt p.1)
    obtain ⟨r, h1, h2, h3, h4, h5, h6⟩ := ih (push_node m p) hm1 hnd.2
      (by
        intro q hq v hv
        rw [hhas] at hv
        rcases hv with hv | hv
        · exact habs q (by simp [hq]) v hv
        · apply hnd.1
          have : q.1 = p.1 := by rw [← hv]
          rw [← this]
          exact List.mem_map_of_mem Prod.fst hq)
      (by rw [push_node_size, push_node_cap]
          simp only [rehash_enlarge_coaf] at hload ⊢; omega)
    refine ⟨r, ?_, h2, ?_, ?_, ?_, ?_⟩
    · rw [List.foldlM_cons, hstep]; exact h1
    · rw [h3, push_node_cap]
    · rw [h4, push_node_hasher]
    · rw [h5, push_node_size, List.length_cons]; omega
    · intro k v
      rw [h6, hhas, List.mem_cons, or_assoc]

end Fuel

section InsertSpec
variable {K V : Type} [DecidableEq K]

theorem Inv.insert_spec {m : HashMap K V} (hm : Inv m) (p : K × V) (fuel : Nat)
    (hf : m.size_ + 3 ≤ fuel) :
    ∃ r, insert fuel m p = some r ∧ Inv r ∧ r.hasher_ = m.hasher_ ∧
      (counts m p.1 = true → r = m) ∧
      (counts m p.1 = false →
        r.size_ = m.size_ + 1 ∧
        r.cap_ = (if m.cap_ ≤ (m.size_ + 1) * rehash_enlarge_coaf then 2 * m.cap_
                  else m.cap_) ∧
        ∀ k v, Has r k v ↔ Has m k v ∨ (k, v) = p) := by
  obtain ⟨f, rfl⟩ : ∃ f, fuel = f + 1 := ⟨fuel - 1, by omega⟩
  have hload := hm.load
  have hcap := hm.inv0.cap_ge
  simp only [rehash_enlarge_coaf, default_capacity] at hload hcap
  by_cases hc : counts m p.1 = true
  · refine ⟨m, insert_present f hc, hm, rfl, fun _ => rfl, ?_⟩
    intro h; rw [hc] at h; cases h
  · have hc0 : counts m p.1 = false := by simpa using hc
    have habs := (hm.inv0.counts_false_iff _).1 hc0
    have hm1 := inv0_push_node hm.inv0 p habs
    have hhas := fun k v => has_push_node m p k v (hm.inv0.hash_lt p.1)
    by_cases hg : m.cap_ ≤ (m.size_ + 1) * rehash_enlarge_coaf
    · -- the insert triggers the grow
      obtain ⟨f1, rfl⟩ : ∃ f1, f = f1 + 1 := ⟨f - 1, by omega⟩
      have hcol : collect (f1 + 1) (push_node m p) (begin (push_node m p))
          = some (entries (push_node m p)) :=
        hm1.collect_begin _ (by rw [push_node_size]; omega)
      have hm2 : Inv0 (reset (push_node m p) (2 * m.cap_)) :=
        inv0_reset hm1 (by simp only [default_capacity]; omega)
      obtain ⟨r, h1, h2, h3, h4, h5, h6⟩ :=
        foldlM_insert f1 (entries (push_node m p)) (reset (push_node m p) (2 * m.cap_)) hm2
          hm1.entries_nodup
          (fun q _ v => not_has_of_allEmpty (hm1.reset_allEmpty _) q.1 v)
          (by rw [reset_size, reset_cap, hm1.entries_length, push_node_size]
              simp only [rehash_enlarge_coaf]; omega)
      rw [reset_cap] at h3
      rw [reset_hasher, push_node_hasher] at h4
      rw [reset_size, hm1.entries_length, push_node_size] at h5
      refine ⟨r, ?_, ⟨h2, ?_⟩, h4, ?_, fun _ => ⟨?_, ?_, ?_⟩⟩
      · rw [insert_grow _ hc0 hg, rehash, hcol]
        exact h1
      · rw [h3, h5]; simp only [rehash_enlarge_coaf]; omega
      · intro h; exact absurd h hc
      · rw [h5]; omega
      · rw [h3, if_pos hg]
      · intro k v
        rw [h6, ← hhas]
        have := hm1.mem_entries (k, v)
        simp only at this
        rw [this]
        constructor
        · rintro (h | h)
          · exact absurd h (not_has_of_allEmpty (hm1.reset_allEmpty _) k v)
          · exact h
        · exact Or.inr
    · refine ⟨push_node m p, insert_no_grow f hc0 (by omega), ⟨hm1, ?_⟩, push_node_hasher m p,
        ?_, fun _ => ⟨push_node_size m p, ?_, hhas⟩⟩
      · rw [push_node_size, push_node_cap]; omega
      · intro h; exact absurd h hc
      · rw [push_node_cap, if_neg hg]

end InsertSpec

section Erase
variable {K V : Type} [DecidableEq K]

theorem listErase_eq_filter (l : List (Nat × Nat)) (n : Nat × Nat)
    (hn : (l.map Prod.fst).Nodup) (hmem : n ∈ l) :
    listErase l (some n.1) = l.filter (fun x => !decide (x.1 = n.1)) := by
  induction l with
  | nil => cases hmem
  | cons a l ih =>
    simp only [List.map_cons, List.nodup_cons] at hn
    by_cases ha : a.1 = n.1
    · have hall : ∀ x ∈ l, x.1 ≠ n.1 := by
        intro x hx e
        apply hn.1
        rw [ha, ← e]
        exact List.mem_map_of_mem Prod.fst hx
      have hfl : l.filter (fun x => !decide (x.1 = n.1)) = l := by
        rw [List.filter_eq_self]
        intro x hx
        simp [hall x hx]
      simp [listErase, ha, hfl]
    · have hmem2 : n ∈ l := by
        rcases List.mem_cons.1 hmem with e | h
        · exact absurd (by rw [e]) ha
        · exact h
      simp [listErase, ha, ih hn.2 hmem2]

theorem filter_key_length (key : K) (l : List (K × V)) (hn : (l.map Prod.fst).Nodup)
    (hk : key ∈ l.map Prod.fst) :
    (l.filter (fun p => !decide (p.1 = key))).length + 1 = l.length := by
  induction l with
  | nil => cases hk
  | cons a l ih =>
    simp only [List.map_cons, List.nodup_cons] at hn
    by_cases ha : a.1 = key
    · have hfl : l.filter (fun p => !decide (p.1 = key)) = l := by
        rw [List.filter_eq_self]
        intro x hx
        have : x.1 ≠ key := by
          intro e
          apply hn.1
          rw [ha, ← e]
          exact List.mem_map_of_mem Prod.fst hx
        simp [this]
      simp [ha, hfl]
    · have hk2 : key ∈ l.map Prod.fst := by
        simp only [List.map_cons, List.mem_cons] at hk
        rcases hk with e | h
        · exact absurd e.symm ha
        · exact h
      simp [ha, ih hn.2 hk2]

theorem erase_absent {m : HashMap K V} {key : K} (h : counts m key = false) :
    erase m key = m := by
  simp [erase, h]

theorem erase_cap (m : HashMap K V) (key : K) : (erase m key).cap_ = m.cap_ := by
  unfold erase; split <;> rfl

theorem erase_hasher (m : HashMap K V) (key : K) : (erase m key).hasher_ = m.hasher_ := by
  unfold erase; split <;> rfl

theorem erase_get_hash (m : HashMap K V) (key k : K) :
    get_hash (erase m key) k = get_hash m k := by
  simp [get_hash, capacity, erase_cap, erase_hasher]

theorem erase_size {m : HashMap K V} {key : K} (h : counts m key = true) :
    (erase m key).size_ = m.size_ - 1 := by
  simp [erase, h]

theorem erase_table {m : HashMap K V} {key : K} (h : counts m key = true) :
    (erase m key).table_ = m.table_.set (get_hash m key)
      ⟨(cellAt m (get_hash m key)).it,
       (cellAt m (get_hash m key)).nodes.filter (fun p => !decide (p.1 = key))⟩ := by
  simp [erase, h]

theorem erase_filled {m : HashMap K V} {key : K} (h : counts m key = true) :
    (erase m key).filled_cells =
      if ((cellAt m (get_hash m key)).nodes.filter (fun p => !decide (p.1 = key))).isEmpty
      then listErase m.filled_cells (cellAt m (get_hash m key)).it
      else m.filled_cells := by
  simp [erase, h]

theorem erase_fresh (m : HashMap K V) (key : K) : (erase m key).fresh = m.fresh := by
  unfold erase; split <;> rfl

theorem cellAt_erase {m : HashMap K V} {key : K} (h : counts m key = true) (i : Nat)
    (hl : get_hash m key < m.table_.length) :
    cellAt (erase m key) i =
      if i = get_hash m key then
        ⟨(cellAt m (get_hash m key)).it,
         (cellAt m (get_hash m key)).nodes.filter (fun p => !decide (p.1 = key))⟩
      else cellAt m i := by
  unfold cellAt
  rw [erase_table h, getD_set_cell]
  simp [hl, cellAt]

theorem Inv0.has_erase {m : HashMap K V} (hm : Inv0 m) (key k : K) (v : V) :
    Has (erase m key) k v ↔ Has m k v ∧ k ≠ key := by
  by_cases hc : counts m key = true
  · unfold Has
    rw [erase_get_hash, cellAt_erase hc _ (hm.hash_lt key)]
    by_cases hk : get_hash m k = get_hash m key
    · simp [hk, List.mem_filter]
    · simp only [hk, if_false]
      constructor
      · intro h
        exact ⟨h, fun e => hk (by rw [e])⟩
      · exact fun h => h.1
  · have hc0 : counts m key = false := by simpa using hc
    rw [erase_absent hc0]
    constructor
    · intro h
      refine ⟨h, fun e => ?_⟩
      subst e
      exact (hm.counts_false_iff _).1 hc0 v h
    · exact fun h => h.1

end Erase

section EraseInv
variable {K V : Type} [DecidableEq K]

theorem inv0_erase {m : HashMap K V} (hm : Inv0 m) (key : K) : Inv0 (erase m key) := by
  by_cases hc : counts m key = true
  swap
  · have hc0 : counts m key = false := by simpa using hc
    rw [erase_absent hc0]; exact hm
  obtain ⟨v, hv⟩ := (hm.counts_iff key).1 hc
  have hl := hm.hash_lt key
  have hcell := fun i => cellAt_erase hc i hl
  have hne : (cellAt m (get_hash m key)).nodes ≠ [] := List.ne_nil_of_mem hv
  obtain ⟨n, hn, hn2⟩ := List.mem_map.1 ((hm.filled_iff _).2 hne)
  have hit : (cellAt m (get_hash m key)).it = some n.1 := by
    rw [← hn2]; exact hm.backref n hn
  have hkey : key ∈ (cellAt m (get_hash m key)).nodes.map Prod.fst :=
    List.mem_map_of_mem Prod.fst hv
  have hlen := filter_key_length key _ (hm.keys_nodup (get_hash m key)) hkey
  have injId := List.inj_on_of_nodup_map hm.ids_nodup
  have injIx := List.inj_on_of_nodup_map hm.idx_nodup
  have hsub : (erase m key).filled_cells.Sublist m.filled_cells := by
    rw [erase_filled hc]
    split
    · rw [hit, listErase_eq_filter _ _ hm.ids_nodup hn]
      exact List.filter_sublist _
    · exact List.Sublist.refl _
  refine ⟨?_, ?_, ?_, ?_, ?_, ?_, ?_, ?_, ?_, ?_⟩
  · rw [erase_table hc, List.length_set, erase_cap]; exact hm.len_eq
  · rw [erase_cap]; exact hm.cap_ge
  · rw [erase_size hc, erase_table hc]
    have := sum_map_set (fun c => c.nodes.length) m.table_ (get_hash m key)
      ⟨(cellAt m (get_hash m key)).it,
       (cellAt m (get_hash m key)).nodes.filter (fun p => !decide (p.1 = key))⟩ ⟨none, []⟩ hl
    have h2 := hm.size_eq
    have h3 : (m.table_.getD (get_hash m key) ⟨none, []⟩).nodes.length
        = (cellAt m (get_hash m key)).nodes.length := rfl
    simp only at this
    omega
  · intro i p hp
    rw [erase_hasher, erase_cap]
    rw [hcell] at hp
    by_cases hi : i = get_hash m key
    · simp only [hi, if_true] at hp
      rw [hi]; exact hm.hash_ok _ p (List.mem_of_mem_filter hp)
    · simp only [hi, if_false] at hp
      exact hm.hash_ok i p hp
  · intro i
    rw [hcell]
    by_cases hi : i = get_hash m key
    · simp only [hi, if_true]
      exact (hm.keys_nodup _).sublist ((List.filter_sublist _).map _)
    · simp only [hi, if_false]; exact hm.keys_nodup i
  · exact hm.ids_nodup.sublist (hsub.map _)
  · exact hm.idx_nodup.sublist (hsub.map _)
  · intro i
    rw [erase_filled hc, hcell]
    by_cases he : ((cellAt m (get_hash m key)).nodes.filter
        (fun p => !decide (p.1 = key))).isEmpty = true
    · rw [if_pos he, hit, listErase_eq_filter _ _ hm.ids_nodup hn]
      have he2 : (cellAt m (get_hash m key)).nodes.filter
          (fun p => !decide (p.1 = key)) = [] := by simpa using he
      by_cases hi : i = get_hash m key
      · simp only [hi, if_true, he2, ne_eq, not_true_eq_false, iff_false]
        intro hx
        obtain ⟨x, hx1, hx2⟩ := List.mem_map.1 hx
        rw [List.mem_filter] at hx1
        have : x = n := injIx hx1.1 hn (hx2.trans hn2.symm)
        rw [this] at hx1
        simp at hx1
      · simp only [hi, if_false]
        rw [← hm.filled_iff]
        constructor
        · intro hx
          obtain ⟨x, hx1, hx2⟩ := List.mem_map.1 hx
          exact List.mem_map.2 ⟨x, List.mem_of_mem_filter hx1, hx2⟩
        · intro hx
          obtain ⟨x, hx1, hx2⟩ := List.mem_map.1 hx
          refine List.mem_map.2 ⟨x, List.mem_filter.2 ⟨hx1, ?_⟩, hx2⟩
          have : x.1 ≠ n.1 := by
            intro e
            have := injId hx1 hn e
            apply hi
            rw [← hx2, this, hn2]
          simp [this]
    · rw [if_neg he]
      have he2 : (cellAt m (get_hash m key)).nodes.filter
          (fun p => !decide (p.1 = key)) ≠ [] := by simpa using he
      by_cases hi : i = get_hash m key
      · simp only [hi, if_true]
        constructor
        · exact fun _ => he2
        · exact fun _ => (hm.filled_iff _).2 hne
      · simp only [hi, if_false]
        exact hm.filled_iff i
  · intro x hx
    have hx0 : x ∈ m.filled_cells := hsub.subset hx
    rw [hcell]
    by_cases hi : x.2 = get_hash m key
    · simp only [hi, if_true]
      have := hm.backref x hx0
      rw [hi] at this
      exact this
    · simp only [hi, if_false]
      exact hm.backref x hx0
  · intro x hx
    rw [erase_fresh]
    exact hm.fresh_gt x (hsub.subset hx)

theorem inv_erase {m : HashMap K V} (hm : Inv m) (key : K) : Inv (erase m key) := by
  refine ⟨inv0_erase hm.inv0 key, ?_⟩
  have := hm.load
  rw [erase_cap]
  by_cases hc : counts m key = true
  · rw [erase_size hc]
    simp only [rehash_enlarge_coaf] at this ⊢
    omega
  · have hc0 : counts m key = false := by simpa using hc
    rw [erase_absent hc0]; exact this

theorem inv_clear {m : HashMap K V} (hm : Inv m) : Inv (clear m) :=
  ⟨inv0_clear hm.inv0, by rw [clear_size, clear_cap]; decide⟩

theorem inv_new (hasher : K → Nat) : Inv (new hasher : HashMap K V) := by
  refine ⟨inv0_of_allEmpty rfl rfl ?_ rfl (Nat.le_refl _), ?_⟩
  swap
  · show 0 * rehash_enlarge_coaf < default_capacity
    decide
  intro i
  show ((resize ([] : List (TableCell K V)) default_capacity).getD i ⟨none, []⟩).nodes = []
  exact @allEmpty_resize K V [] (fun j => by simp) default_capacity i

end EraseInv

section ReachInv
variable {K V : Type}

theorem clear_allEmpty_of {m : HashMap K V}
    (h : ∀ i, i ∉ m.filled_cells.map Prod.snd → (cellAt m i).nodes = []) :
    AllEmpty (clear m).table_ := by
  rw [clear_table]
  apply allEmpty_resize
  intro i
  rw [clearLoop_nodes]
  by_cases hi : i ∈ m.filled_cells.map Prod.snd
  · simp only [hi, if_true]
  · simp only [hi, if_false]
    exact h i hi

theorem inv_clear_of {m : HashMap K V}
    (h : ∀ i, i ∉ m.filled_cells.map Prod.snd → (cellAt m i).nodes = []) :
    Inv (clear m) :=
  ⟨inv0_of_allEmpty (clear_filled m) (clear_size m) (clear_allEmpty_of h)
    (by rw [clear_table, resize_length, clear_cap]) (by rw [clear_cap]),
   by rw [clear_size, clear_cap]; decide⟩

theorem keys_set (l : List (K × V)) (j : Nat) (p : K × V) (v : V) (h : l[j]? = some p) :
    (l.set j (p.1, v)).map Prod.fst = l.map Prod.fst := by
  induction l generalizing j with
  | nil => simp
  | cons a l ih =>
    cases j with
    | zero =>
      simp only [List.getElem?_cons_zero, Option.some.injEq] at h
      simp [h]
    | succ j =>
      simp only [List.getElem?_cons_succ] at h
      simp [ih j h]

theorem store_invalid {m : HashMap K V} {c : iterator} (v : V) (h : deref m c = none) :
    store m c v = m := by
  simp [store, h]

theorem cellAt_store {m : HashMap K V} {c : iterator} {p : K × V} (v : V)
    (h : deref m c = some p) (i : Nat) :
    cellAt (store m c v) i =
      if i = c.cell then
        ⟨(cellAt m c.cell).it, (cellAt m c.cell).nodes.set c.node (p.1, v)⟩
      else cellAt m i := by
  have hne : (cellAt m c.cell).nodes ≠ [] := by
    intro e
    simp [deref, e] at h
  have hl := lt_of_nodes_ne_nil m hne
  unfold cellAt
  simp only [store, h, getD_set_cell]
  simp [hl, cellAt]

theorem inv0_store {m : HashMap K V} (hm : Inv0 m) (c : iterator) (v : V) :
    Inv0 (store m c v) := by
  cases hd : deref m c with
  | none => rw [store_invalid v hd]; exact hm
  | some p =>
    have hcell := cellAt_store v hd
    have hne : (cellAt m c.cell).nodes ≠ [] := by
      intro e
      simp [deref, e] at hd
    have hl := lt_of_nodes_ne_nil m hne
    have hp : (cellAt m c.cell).nodes[c.node]? = some p := hd
    have hkeys := keys_set _ _ _ v hp
    have htab : (store m c v).table_ = m.table_.set c.cell
        ⟨(cellAt m c.cell).it, (cellAt m c.cell).nodes.set c.node (p.1, v)⟩ := by
      simp [store, hd]
    have hfil : (store m c v).filled_cells = m.filled_cells := by simp [store, hd]
    have hcap : (store m c v).cap_ = m.cap_ := by simp [store, hd]
    have hsz : (store m c v).size_ = m.size_ := by simp [store, hd]
    have hha : (store m c v).hasher_ = m.hasher_ := by simp [store, hd]
    have hfr : (store m c v).fresh = m.fresh := by simp [store, hd]
    refine ⟨?_, ?_, ?_, ?_, ?_, ?_, ?_, ?_, ?_, ?_⟩
    · rw [htab, List.length_set, hcap]; exact hm.len_eq
    · rw [hcap]; exact hm.cap_ge
    · rw [hsz, htab]
      have := sum_map_set (fun c => c.nodes.length) m.table_ c.cell
        ⟨(cellAt m c.cell).it, (cellAt m c.cell).nodes.set c.node (p.1, v)⟩ ⟨none, []⟩ hl
      have h2 := hm.size_eq
      have h3 : (m.table_.getD c.cell ⟨none, []⟩).nodes.length
          = (cellAt m c.cell).nodes.length := rfl
      simp only [List.length_set] at this
      omega
    · intro i q hq
      rw [hha, hcap]
      rw [hcell] at hq
      by_cases hi : i = c.cell
      · simp only [hi, if_true] at hq
        rw [hi]
        rcases List.mem_or_eq_of_mem_set hq with h1 | h1
        · exact hm.hash_ok _ q h1
        · rw [h1]
          exact hm.hash_ok _ p (List.mem_iff_getElem?.2 ⟨_, hp⟩)
      · simp only [hi, if_false] at hq
        exact hm.hash_ok i q hq
    · intro i
      rw [hcell]
      by_cases hi : i = c.cell
      · simp only [hi, if_true, hkeys]; exact hm.keys_nodup _
      · simp only [hi, if_false]; exact hm.keys_nodup i
    · rw [hfil]; exact hm.ids_nodup
    · rw [hfil]; exact hm.idx_nodup
    · intro i
      rw [hfil, hcell, hm.filled_iff]
      by_cases hi : i = c.cell
      · simp only [hi, if_true]
        constructor
        · intro _ e
          have := congrArg List.length e
          simp only [List.length_set, List.length_nil] at this
          exact hne (List.length_eq_zero.1 this)
        · exact fun _ => hne
      · simp only [hi, if_false]
    · intro n hn
      rw [hfil] at hn
      rw [hcell]
      by_cases hi : n.2 = c.cell
      · simp only [hi, if_true]
        have := hm.backref n hn
        rw [hi] at this
        exact this
      · simp only [hi, if_false]
        exact hm.backref n hn
    · intro n hn
      rw [hfil] at hn
      rw [hfr]
      exact hm.fresh_gt n hn

theorem inv_store {m : HashMap K V} (hm : Inv m) (c : iterator) (v : V) :
    Inv (store m c v) := by
  refine ⟨inv0_store hm.inv0 c v, ?_⟩
  have := hm.load
  cases hd : deref m c with
  | none => rw [store_invalid v hd]; exact this
  | some p => simpa [store, hd] using this

variable [DecidableEq K]

theorem Inv.insert_result {m r : HashMap K V} (hm : Inv m) {p : K × V} {fuel : Nat}
    (h : insert fuel m p = some r) :
    Inv r ∧ r.hasher_ = m.hasher_ ∧ (counts m p.1 = true → r = m) ∧
      (counts m p.1 = false →
        r.size_ = m.size_ + 1 ∧
        r.cap_ = (if m.cap_ ≤ (m.size_ + 1) * rehash_enlarge_coaf then 2 * m.cap_
                  else m.cap_) ∧
        ∀ k v, Has r k v ↔ Has m k v ∨ (k, v) = p) := by
  obtain ⟨r1, h1, h2⟩ := hm.insert_spec p (max fuel (m.size_ + 3)) (Nat.le_max_right _ _)
  rw [insert_mono_le (Nat.le_max_left _ _) h, Option.some.injEq] at h1
  rw [h1]
  exact h2

theorem inv_foldlM_insert (fuel : Nat) :
    ∀ (l : List (K × V)) (m r : HashMap K V), Inv m →
      l.foldlM (insert fuel) m = some r → Inv r := by
  intro l
  induction l with
  | nil =>
    intro m r hm h
    simp only [List.foldlM_nil, Option.pure_def, Option.some.injEq] at h
    rw [← h]; exact hm
  | cons p l ih =>
    intro m r hm h
    rw [List.foldlM_cons] at h
    cases hp : insert fuel m p with
    | none => simp [hp] at h
    | some m1 =>
      rw [hp] at h
      exact ih m1 r (hm.insert_result hp).1 h

theorem inv_copy_from {fuel : Nat} {this other r : HashMap K V}
    (hthis : ∀ i, i ∉ this.filled_cells.map Prod.snd → (cellAt this i).nodes = [])
    (h : copy_from fuel this other = some r) : Inv r := by
  unfold copy_from at h
  cases hc : collect fuel other (begin other) with
  | none => simp [hc] at h
  | some l =>
    rw [hc] at h
    exact inv_foldlM_insert fuel l (clear { this with hasher_ := other.hasher_ }) r
      (inv_clear_of hthis) h

theorem Inv0.not_filled {m : HashMap K V} (hm : Inv0 m) :
    ∀ i, i ∉ m.filled_cells.map Prod.snd → (cellAt m i).nodes = [] := by
  intro i hi
  by_contra hc
  exact hi ((hm.filled_iff i).2 hc)

variable [Inhabited V]

theorem index_state {fuel : Nat} {m r : HashMap K V} {key : K} {v : V}
    (h : index fuel m key = some (v, r)) :
    (find m key ≠ end_ m ∧ r = m) ∨
      (find m key = end_ m ∧ insert fuel m (key, default) = some r) := by
  unfold index at h
  by_cases he : find m key = end_ m
  · right
    rw [if_pos he] at h
    refine ⟨he, ?_⟩
    cases hi : insert fuel m (key, default) with
    | none => simp [hi] at h
    | some m1 =>
      rw [hi] at h
      cases hd : deref m1 (find m1 key) with
      | none => simp [hd] at h
      | some p =>
        simp only [hd, Option.some.injEq, Prod.mk.injEq] at h
        rw [h.2]
  · left
    rw [if_neg he] at h
    refine ⟨he, ?_⟩
    cases hd : deref m (find m key) with
    | none => simp [hd] at h
    | some p =>
      simp only [hd, Option.some.injEq, Prod.mk.injEq] at h
      exact h.2.symm

theorem Reachable.inv {m : HashMap K V} (h : Reachable m) : Inv m := by
  induction h with
  | new hasher => exact inv_new hasher
  | from_range h => exact inv_foldlM_insert _ _ _ _ (inv_new _) h
  | from_initializer_list h => exact inv_foldlM_insert _ _ _ _ (inv_new _) h
  | copy_ctor _ h _ =>
    refine inv_copy_from ?_ h
    intro i _
    rfl
  | copy_assign hm _ h ih _ => exact inv_copy_from ih.inv0.not_filled h
  | move_assign hm _ h ih _ => exact inv_copy_from ih.inv0.not_filled h
  | insert _ h ih => exact (ih.insert_result h).1
  | erase key _ ih => exact inv_erase ih key
  | index _ h ih =>
    rcases index_state h with ⟨_, e⟩ | ⟨_, e⟩
    · rw [e]; exact ih
    · exact (ih.insert_result e).1
  | clear _ ih => exact inv_clear ih
  | store c v _ ih => exact inv_store ih c v

end ReachInv

section ClaimLemmas
variable {K V : Type} [DecidableEq K]

theorem reachable_exThree : Reachable exThree :=
  Reachable.from_initializer_list
    (rfl : from_initializer_list 1 exHash [(0, 10), (8, 11), (1, 12)] = some exThree)

theorem Inv.has_insert {m r : HashMap K V} (hm : Inv m) {p : K × V} {fuel : Nat}
    (h : insert fuel m p = some r) (k : K) (v : V) :
    Has r k v ↔ Has m k v ∨ (counts m p.1 = false ∧ (k, v) = p) := by
  obtain ⟨_, _, h3, h4⟩ := hm.insert_result h
  by_cases hc : counts m p.1 = true
  · rw [h3 hc]
    simp [hc]
  · have hc0 : counts m p.1 = false := by simpa using hc
    rw [(h4 hc0).2.2]
    simp [hc0]

theorem Inv0.find_eq_end_iff {m : HashMap K V} (hm : Inv0 m) (key : K) :
    find m key = end_ m ↔ ∀ v, ¬ Has m key v := by
  rw [← not_iff_not, ← ne_eq, hm.find_ne_end_iff]
  simp

theorem Inv0.has_iff_mem_table {m : HashMap K V} (hm : Inv0 m) (key : K) (v : V) :
    Has m key v ↔ ∃ c ∈ m.table_, (key, v) ∈ c.nodes := by
  constructor
  · intro h
    have hl := lt_of_nodes_ne_nil m (List.ne_nil_of_mem h)
    refine ⟨cellAt m (get_hash m key), ?_, h⟩
    unfold cellAt
    rw [List.getD_eq_getElem _ _ hl]
    exact List.getElem_mem hl
  · rintro ⟨c, hc, hp⟩
    obtain ⟨i, hi, rfl⟩ := List.mem_iff_getElem.1 hc
    have hci : cellAt m i = m.table_[i] := by
      unfold cellAt
      exact List.getD_eq_getElem _ _ hi
    have := hm.hash_ok i (key, v) (by rw [hci]; exact hp)
    unfold Has get_hash capacity
    simp only at this
    rw [this, hci]
    exact hp

theorem Inv0.table_keys_nodup {m : HashMap K V} (hm : Inv0 m) :
    ((m.table_.flatMap (fun c => c.nodes)).map Prod.fst).Nodup := by
  rw [List.map_flatMap, List.nodup_flatMap]
  have hcell : ∀ i (hi : i < m.table_.length), cellAt m i = m.table_[i] := by
    intro i hi
    unfold cellAt
    exact List.getD_eq_getElem _ _ hi
  constructor
  · intro c hc
    obtain ⟨i, hi, rfl⟩ := List.mem_iff_getElem.1 hc
    rw [← hcell i hi]
    exact hm.keys_nodup i
  · rw [List.pairwise_iff_getElem]
    intro i j hi hj hij k hki hkj
    obtain ⟨p, hp, hpe⟩ := List.mem_map.1 hki
    obtain ⟨q, hq, hqe⟩ := List.mem_map.1 hkj
    rw [← hcell i hi] at hp
    rw [← hcell j hj] at hq
    have h1 := hm.hash_ok i p hp
    have h2 := hm.hash_ok j q hq
    rw [hpe] at h1
    rw [hqe] at h2
    omega

end ClaimLemmas

section Claims
variable {K V : Type} [DecidableEq K]

theorem find_eq_end_of_counts {m : HashMap K V} {k : K} :
    counts m k = false ↔ find m k = end_ m := by
  simp [counts]

theorem Inv.insert_total {m : HashMap K V} (hm : Inv m) (p : K × V) :
    ∃ r, (∀ fuel, m.size_ + 3 ≤ fuel → insert fuel m p = some r) ∧
      (∀ fuel r1, insert fuel m p = some r1 → r1 = r) ∧ Inv r ∧
      (∀ k v, Has r k v ↔ Has m k v ∨ (counts m p.1 = false ∧ (k, v) = p)) ∧
      (counts m p.1 = false → r.size_ = m.size_ + 1) ∧
      (counts m p.1 = false → m.cap_ ≤ (m.size_ + 1) * rehash_enlarge_coaf →
        r.cap_ = 2 * m.cap_) := by
  obtain ⟨r, h1, h2, _, _, h5⟩ := hm.insert_spec p (m.size_ + 3) (Nat.le_refl _)
  refine ⟨r, fun fuel hf => insert_mono_le hf h1, ?_, h2, hm.has_insert h1, ?_, ?_⟩
  · intro fuel r1 hr
    have a := insert_mono_le (Nat.le_max_left fuel (m.size_ + 3)) hr
    have b := insert_mono_le (Nat.le_max_right fuel (m.size_ + 3)) h1
    rw [a] at b
    exact Option.some.inj b
  · exact fun hc => (h5 hc).1
  · intro hc hg
    rw [(h5 hc).2.1, if_pos hg]

/-- C2: on every table (reachable or not) in which `find(k)` designates an entry
`(k, v1)`, `insert(k, v2)` returns at once and leaves the whole state (size,
capacity, every chain, `filled_cells`) as it was, for every `v2`; `k` still
maps to `v1`. -/
theorem insert_present_noop (m : HashMap K V) (k : K) (v1 v2 : V)
    (hfind : find m k ≠ end_ m) (hval : deref m (find m k) = some (k, v1)) :
    (∀ fuel, insert (fuel + 1) m (k, v2) = some m) ∧
      ∀ fuel r, insert fuel m (k, v2) = some r →
        r = m ∧ find r k ≠ end_ r ∧ deref r (find r k) = some (k, v1) := by
  have hc : counts m k = true := by simpa [counts] using hfind
  have h1 : ∀ fuel, insert (fuel + 1) m (k, v2) = some m := fun fuel => insert_present fuel hc
  refine ⟨h1, ?_⟩
  intro fuel r hr
  cases fuel with
  | zero => simp [insert] at hr
  | succ f =>
    rw [h1 f] at hr
    have e : r = m := (Option.some.inj hr).symm
    rw [e]
    exact ⟨rfl, hfind, hval⟩

theorem insert_present_noop_witness :
    find exThree 8 ≠ end_ exThree ∧ deref exThree (find exThree 8) = some (8, 11) ∧
    ((∀ fuel, insert (fuel + 1) exThree (8, 99) = some exThree) ∧
      ∀ fuel r, insert fuel exThree (8, 99) = some r →
        r = exThree ∧ find r 8 ≠ end_ r ∧ deref r (find r 8) = some (8, 11)) :=
  ⟨by decide, by decide, insert_present_noop exThree 8 11 99 (by decide) (by decide)⟩

/-- C6: on every table (reachable or not), `erase(k)` of a key that `find` does
not reach returns the state it was given: size, capacity, every chain and
`filled_cells` are as before, hence so is the traversal from `begin()`.  The
function is total: there is no error to raise. -/
theorem erase_absent_noop (m : HashMap K V) (k : K) (habs : find m k = end_ m) :
    erase m k = m ∧ size (erase m k) = size m ∧ capacity (erase m k) = capacity m ∧
      (erase m k).table_ = m.table_ ∧ (erase m k).filled_cells = m.filled_cells ∧
      ∀ fuel, collect fuel (erase m k) (begin (erase m k)) = collect fuel m (begin m) := by
  have e : erase m k = m := erase_absent (find_eq_end_of_counts.2 habs)
  rw [e]
  exact ⟨rfl, rfl, rfl, rfl, rfl, fun _ => rfl⟩

theorem erase_absent_noop_witness :
    find exThree 16 = end_ exThree ∧
    (erase exThree 16 = exThree ∧ size (erase exThree 16) = size exThree ∧
      capacity (erase exThree 16) = capacity exThree ∧
      (erase exThree 16).table_ = exThree.table_ ∧
      (erase exThree 16).filled_cells = exThree.filled_cells ∧
      ∀ fuel, collect fuel (erase exThree 16) (begin (erase exThree 16))
        = collect fuel exThree (begin exThree)) :=
  ⟨by decide, erase_absent_noop exThree 16 (by decide)⟩

variable [Inhabited V]

/-- C1: on a reachable table, `insert(k, v)` of a key `k` that `find` does not
reach returns, and in the table it leaves `find(k)` designates an entry with
key `k` and value `v` and `size()` is one more than before; this holds whether
the insert ran the grow or not. -/
theorem insert_absent_find_size (m : HashMap K V) (hm : Reachable m) (k : K) (v : V)
    (habs : find m k = end_ m) :
    ∃ r, (∃ N, ∀ fuel, N ≤ fuel → insert fuel m (k, v) = some r) ∧
      (∀ fuel r1, insert fuel m (k, v) = some r1 → r1 = r) ∧
      find r k ≠ end_ r ∧ deref r (find r k) = some (k, v) ∧ size r = size m + 1 := by
  have hc : counts m k = false := find_eq_end_of_counts.2 habs
  obtain ⟨r, h1, h2, h3, h4, h5, _⟩ := hm.inv.insert_total (k, v)
  have hhas : Has r k v := (h4 k v).2 (Or.inr ⟨hc, rfl⟩)
  exact ⟨r, ⟨_, h1⟩, h2, (h3.inv0.find_of_has hhas).1, (h3.inv0.find_of_has hhas).2, h5 hc⟩

theorem insert_absent_find_size_witness :
    Reachable exThree ∧ find exThree 3 = end_ exThree ∧
    ∃ r, (∃ N, ∀ fuel, N ≤ fuel → insert fuel exThree (3, 13) = some r) ∧
      (∀ fuel r1, insert fuel exThree (3, 13) = some r1 → r1 = r) ∧
      find r 3 ≠ end_ r ∧ deref r (find r 3) = some (3, 13) ∧ size r = size exThree + 1 :=
  ⟨reachable_exThree, by decide,
    insert_absent_find_size exThree reachable_exThree 3 13 (by decide)⟩

/-- C3: on a reachable table every `insert(k, v)` returns, every entry
`(k1, v1)` that `find` reached before is reached afterwards with the same
value, and every key other than `k` has the same lookup result (`at` returns
the same value or throws the same exception, `find` is the end sentinel in one
table exactly when it is in the other).  When the insert adds the key and
`2 * (size() + 1) >= capacity()` the table has been rehashed to twice the
capacity. -/
theorem insert_keeps_entries (m : HashMap K V) (hm : Reachable m) (k : K) (v : V) :
    ∃ r, (∃ N, ∀ fuel, N ≤ fuel → insert fuel m (k, v) = some r) ∧
      (∀ fuel r1, insert fuel m (k, v) = some r1 → r1 = r) ∧
      (∀ k1 v1, find m k1 ≠ end_ m → deref m (find m k1) = some (k1, v1) →
        find r k1 ≠ end_ r ∧ deref r (find r k1) = some (k1, v1)) ∧
      (∀ k1, k1 ≠ k → at_ r k1 = at_ m k1 ∧ (find r k1 = end_ r ↔ find m k1 = end_ m)) ∧
      (find m k = end_ m → capacity m ≤ (size m + 1) * rehash_enlarge_coaf →
        capacity r = 2 * capacity m) := by
  obtain ⟨r, h1, h2, h3, h4, _, h6⟩ := hm.inv.insert_total (k, v)
  have hm0 := hm.inv.inv0
  refine ⟨r, ⟨_, h1⟩, h2, ?_, ?_, ?_⟩
  · intro k1 v1 hf hd
    have hhas : Has m k1 v1 := (hm0.deref_find_iff k1 v1).1 ⟨hf, hd⟩
    exact h3.inv0.find_of_has ((h4 k1 v1).2 (Or.inl hhas))
  · intro k1 hne
    have hiff : ∀ w, Has r k1 w ↔ Has m k1 w := by
      intro w
      rw [h4]
      constructor
      · rintro (h | ⟨_, h⟩)
        · exact h
        · exact absurd (congrArg Prod.fst h) hne
      · exact Or.inl
    refine ⟨hm0.at_congr h3.inv0 hiff, ?_⟩
    rw [h3.inv0.find_eq_end_iff, hm0.find_eq_end_iff]
    exact forall_congr' (fun w => not_congr (hiff w))
  · intro habs hg
    exact h6 (find_eq_end_of_counts.2 habs) hg

theorem insert_keeps_entries_witness :
    Reachable exThree ∧
    ∃ r, (∃ N, ∀ fuel, N ≤ fuel → insert fuel exThree (3, 13) = some r) ∧
      (∀ fuel r1, insert fuel exThree (3, 13) = some r1 → r1 = r) ∧
      (∀ k1 v1, find exThree k1 ≠ end_ exThree →
        deref exThree (find exThree k1) = some (k1, v1) →
        find r k1 ≠ end_ r ∧ deref r (find r k1) = some (k1, v1)) ∧
      (∀ k1, k1 ≠ 3 → at_ r k1 = at_ exThree k1 ∧
        (find r k1 = end_ r ↔ find exThree k1 = end_ exThree)) ∧
      (find exThree 3 = end_ exThree →
        capacity exThree ≤ (size exThree + 1) * rehash_enlarge_coaf →
        capacity r = 2 * capacity exThree) :=
  ⟨reachable_exThree, insert_keeps_entries exThree reachable_exThree 3 13⟩

/-- C4: on a reachable table, after `erase(k)` the call `find(k)` returns the end
sentinel, for every key `k`; when `find(k)` reached an entry before the erase,
`size()` is one less afterwards. -/
theorem erase_then_find (m : HashMap K V) (hm : Reachable m) (k : K) :
    find (erase m k) k = end_ (erase m k) ∧
      (find m k ≠ end_ m → size (erase m k) + 1 = size m) := by
  have hm0 := hm.inv.inv0
  constructor
  · apply find_of_not_mem
    intro v hv
    exact ((hm0.has_erase k k v).1 hv).2 rfl
  · intro hf
    have hc : counts m k = true := by simpa [counts] using hf
    obtain ⟨v, hv⟩ := (hm0.find_ne_end_iff k).1 hf
    have hpos := hm0.size_pos (List.ne_nil_of_mem hv)
    simp only [size, erase_size hc]
    omega

theorem erase_then_find_witness :
    Reachable exThree ∧
    (find (erase exThree 8) 8 = end_ (erase exThree 8) ∧
      (find exThree 8 ≠ end_ exThree → size (erase exThree 8) + 1 = size exThree)) :=
  ⟨reachable_exThree, erase_then_find exThree reachable_exThree 8⟩

/-- C5: on a reachable table, `erase(k)` of a present key leaves `capacity()`
as it was, leaves the lookup result of every other key as it was (`at` returns
the same value or throws the same exception, `find` is the end sentinel in
one table exactly when it is in the other), and changes the chain of no cell
other than cell `hash(k) mod capacity`. -/
theorem erase_frame (m : HashMap K V) (hm : Reachable m) (k : K)
    (hpres : find m k ≠ end_ m) :
    capacity (erase m k) = capacity m ∧
      (∀ k1, k1 ≠ k → at_ (erase m k) k1 = at_ m k1 ∧
        (find (erase m k) k1 = end_ (erase m k) ↔ find m k1 = end_ m)) ∧
      (∀ i, i ≠ get_hash m k → (cellAt (erase m k) i).nodes = (cellAt m i).nodes) := by
  have hm0 := hm.inv.inv0
  have he0 := inv0_erase hm0 k
  have hc : counts m k = true := by simpa [counts] using hpres
  refine ⟨erase_cap m k, ?_, ?_⟩
  · intro k1 hne
    have hiff : ∀ w, Has (erase m k) k1 w ↔ Has m k1 w := by
      intro w
      rw [hm0.has_erase]
      exact ⟨fun h => h.1, fun h => ⟨h, hne⟩⟩
    refine ⟨hm0.at_congr he0 hiff, ?_⟩
    rw [he0.find_eq_end_iff, hm0.find_eq_end_iff]
    exact forall_congr' (fun w => not_congr (hiff w))
  · intro i hi
    rw [cellAt_erase hc i (hm0.hash_lt k), if_neg hi]

theorem erase_frame_witness :
    Reachable exThree ∧ find exThree 8 ≠ end_ exThree ∧
    (capacity (erase exThree 8) = capacity exThree ∧
      (∀ k1, k1 ≠ 8 → at_ (erase exThree 8) k1 = at_ exThree k1 ∧
        (find (erase exThree 8) k1 = end_ (erase exThree 8) ↔
          find exThree k1 = end_ exThree)) ∧
      (∀ i, i ≠ get_hash exThree 8 →
        (cellAt (erase exThree 8) i).nodes = (cellAt exThree i).nodes)) :=
  ⟨reachable_exThree, by decide, erase_frame exThree reachable_exThree 8 (by decide)⟩

end Claims

section Claims2
variable {K V : Type} [DecidableEq K]

theorem collect_mono_le {m : HashMap K V} {fuel fuel1 : Nat} {c : iterator}
    {l : List (K × V)} (hle : fuel ≤ fuel1) (h : collect fuel m c = some l) :
    collect fuel1 m c = some l := by
  induction hle with
  | refl => exact h
  | step _ ih => exact collect_mono _ _ _ ih

theorem Inv0.at_eq_ok_iff {m : HashMap K V} (hm : Inv0 m) (k : K) (v : V) :
    at_ m k = .ok v ↔ Has m k v := by
  constructor
  · intro h
    by_cases hh : ∃ w, Has m k w
    · obtain ⟨w, hw⟩ := hh
      rw [hm.at_of_has hw] at h
      cases h
      exact hw
    · rw [at_of_not_has (fun w hw => hh ⟨w, hw⟩)] at h
      cases h
  · exact hm.at_of_has

theorem Inv0.at_eq_error_iff {m : HashMap K V} (hm : Inv0 m) (k : K) (e : Fault) :
    at_ m k = .error e ↔ (e = .out_of_range ∧ ∀ v, ¬ Has m k v) := by
  constructor
  · intro h
    by_cases hh : ∃ w, Has m k w
    · obtain ⟨w, hw⟩ := hh
      rw [hm.at_of_has hw] at h
      cases h
    · have h0 : ∀ w, ¬ Has m k w := fun w hw => hh ⟨w, hw⟩
      rw [at_of_not_has h0] at h
      cases h
      exact ⟨rfl, h0⟩
  · rintro ⟨rfl, h0⟩
    exact at_of_not_has h0

variable [Inhabited V]

/-- C7: on a reachable table, `at(k)` returns the value `v` exactly when
`find(k)` is not the end sentinel and designates the entry `(k, v)`; it
returns a value whenever `find(k)` succeeds; it throws `std::out_of_range`,
and fails at all, exactly when `find(k)` is the end sentinel, which is exactly
when no chain of the table holds an entry with key `k`.  `at` is a `const`
member: it is a function of the table and has no table to return. -/
theorem at_spec (m : HashMap K V) (hm : Reachable m) (k : K) :
    (∀ v, at_ m k = .ok v ↔ (find m k ≠ end_ m ∧ deref m (find m k) = some (k, v))) ∧
      (find m k ≠ end_ m → ∃ v, at_ m k = .ok v) ∧
      (at_ m k = .error .out_of_range ↔ find m k = end_ m) ∧
      ((∃ e, at_ m k = .error e) ↔ find m k = end_ m) ∧
      (find m k = end_ m ↔ ∀ c ∈ m.table_, ∀ p ∈ c.nodes, p.1 ≠ k) := by
  have hm0 := hm.inv.inv0
  refine ⟨?_, ?_, ?_, ?_, ?_⟩
  · intro v
    rw [hm0.at_eq_ok_iff, hm0.deref_find_iff]
  · intro hf
    obtain ⟨v, hv⟩ := (hm0.find_ne_end_iff k).1 hf
    exact ⟨v, hm0.at_of_has hv⟩
  · rw [hm0.at_eq_error_iff, hm0.find_eq_end_iff]
    simp
  · rw [hm0.find_eq_end_iff]
    constructor
    · rintro ⟨e, he⟩
      exact ((hm0.at_eq_error_iff k e).1 he).2
    · intro h
      exact ⟨.out_of_range, at_of_not_has h⟩
  · rw [hm0.find_eq_end_iff]
    constructor
    · intro h c hc p hp e
      apply h p.2
      rw [hm0.has_iff_mem_table]
      refine ⟨c, hc, ?_⟩
      rw [← e]
      exact hp
    · intro h v hv
      obtain ⟨c, hc, hp⟩ := (hm0.has_iff_mem_table k v).1 hv
      exact h c hc (k, v) hp rfl

theorem at_spec_witness :
    Reachable exThree ∧
    ((∀ v, at_ exThree 8 = .ok v ↔
        (find exThree 8 ≠ end_ exThree ∧ deref exThree (find exThree 8) = some (8, v))) ∧
      (find exThree 8 ≠ end_ exThree → ∃ v, at_ exThree 8 = .ok v) ∧
      (at_ exThree 8 = .error .out_of_range ↔ find exThree 8 = end_ exThree) ∧
      ((∃ e, at_ exThree 8 = .error e) ↔ find exThree 8 = end_ exThree) ∧
      (find exThree 8 = end_ exThree ↔ ∀ c ∈ exThree.table_, ∀ p ∈ c.nodes, p.1 ≠ 8)) :=
  ⟨reachable_exThree, at_spec exThree reachable_exThree 8⟩

/-- C8: on a reachable table, `table[k]` for a key `find` does not reach runs
`insert(k, ValueType())`, returns the default value, and leaves a table in
which `find(k)` designates `(k, default)` and `size()` is one more than
before, also when the insert ran the grow; for a key `find` reaches it returns
the stored value and leaves the table as it was.  In both cases it returns. -/
theorem index_spec (m : HashMap K V) (hm : Reachable m) (k : K) :
    (find m k = end_ m →
      ∃ r, (∃ N, ∀ fuel, N ≤ fuel →
              insert fuel m (k, default) = some r ∧ index fuel m k = some (default, r)) ∧
        (∀ fuel v r1, index fuel m k = some (v, r1) → v = default ∧ r1 = r) ∧
        find r k ≠ end_ r ∧ deref r (find r k) = some (k, default) ∧
        size r = size m + 1) ∧
    (find m k ≠ end_ m →
      ∃ v, deref m (find m k) = some (k, v) ∧ ∀ fuel, index fuel m k = some (v, m)) := by
  have hm0 := hm.inv.inv0
  constructor
  · intro habs
    have hc : counts m k = false := find_eq_end_of_counts.2 habs
    obtain ⟨r, h1, h2, h3, h4, h5, _⟩ := hm.inv.insert_total (k, default)
    have hhas : Has r k default := (h4 k default).2 (Or.inr ⟨hc, rfl⟩)
    obtain ⟨hf, hd⟩ := h3.inv0.find_of_has hhas
    refine ⟨r, ⟨_, fun fuel hfu => ⟨h1 fuel hfu, ?_⟩⟩, ?_, hf, hd, h5 hc⟩
    · simp [index, habs, h1 fuel hfu, hd]
    · intro fuel v r1 hi
      rcases index_state hi with ⟨hne, _⟩ | ⟨_, hins⟩
      · exact absurd habs hne
      · have e := h2 fuel r1 hins
        subst e
        simp [index, habs, hins, hd] at hi
        exact ⟨hi.symm, rfl⟩
  · intro hf
    obtain ⟨v, hv⟩ := (hm0.find_ne_end_iff k).1 hf
    have hd := (hm0.find_of_has hv).2
    exact ⟨v, hd, fun fuel => by simp [index, hf, hd]⟩

theorem index_spec_witness :
    Reachable exThree ∧ find exThree 3 = end_ exThree ∧ find exThree 8 ≠ end_ exThree ∧
    ((find exThree 3 = end_ exThree →
      ∃ r, (∃ N, ∀ fuel, N ≤ fuel →
              insert fuel exThree (3, default) = some r ∧
              index fuel exThree 3 = some (default, r)) ∧
        (∀ fuel v r1, index fuel exThree 3 = some (v, r1) → v = default ∧ r1 = r) ∧
        find r 3 ≠ end_ r ∧ deref r (find r 3) = some (3, default) ∧
        size r = size exThree + 1) ∧
    (find exThree 3 ≠ end_ exThree →
      ∃ v, deref exThree (find exThree 3) = some (3, v) ∧
        ∀ fuel, index fuel exThree 3 = some (v, exThree))) :=
  ⟨reachable_exThree, by decide, by decide, index_spec exThree reachable_exThree 3⟩

/-- C9: in every reachable table (built by the constructors, `insert`,
`erase`, `operator[]`, `clear`, the copy constructor and the assignments) the
keys of the entries of all chains are pairwise distinct: for every key `k` at
most one entry with key `k` is stored. -/
theorem keys_unique (m : HashMap K V) (hm : Reachable m) :
    ((m.table_.flatMap (fun c => c.nodes)).map Prod.fst).Nodup ∧
      ∀ k, ((m.table_.flatMap (fun c => c.nodes)).filter
              (fun p => decide (p.1 = k))).length ≤ 1 := by
  have hnd := hm.inv.inv0.table_keys_nodup
  refine ⟨hnd, fun k => ?_⟩
  have h1 := List.nodup_iff_count_le_one.1 hnd k
  rw [List.count, List.countP_map, List.countP_eq_length_filter] at h1
  have h2 : (fun p : K × V => decide (p.1 = k)) = ((fun x => x == k) ∘ Prod.fst) := by
    funext p
    rfl
  rw [h2]
  exact h1

theorem keys_unique_witness :
    Reachable exThree ∧
    (((exThree.table_.flatMap (fun c => c.nodes)).map Prod.fst).Nodup ∧
      ∀ k, ((exThree.table_.flatMap (fun c => c.nodes)).filter
              (fun p => decide (p.1 = k))).length ≤ 1) :=
  ⟨reachable_exThree, keys_unique exThree reachable_exThree⟩

/-- C10: on a reachable table the walk from `begin()` with `++` until `end()`
returns; it visits exactly `size()` entries, their keys are pairwise distinct,
a key is visited exactly when `find` reaches it, and the visited entry of a key
is the entry `find` designates; `size()` is the sum of the chain lengths of all
cells. -/
theorem traversal_complete (m : HashMap K V) (hm : Reachable m) :
    ∃ l, (∃ N, ∀ fuel, N ≤ fuel → collect fuel m (begin m) = some l) ∧
      (∀ fuel l1, collect fuel m (begin m) = some l1 → l1 = l) ∧
      l.length = size m ∧ (l.map Prod.fst).Nodup ∧
      (∀ k, k ∈ l.map Prod.fst ↔ find m k ≠ end_ m) ∧
      (∀ k v, (k, v) ∈ l ↔ (find m k ≠ end_ m ∧ deref m (find m k) = some (k, v))) ∧
      size m = (m.table_.map (fun c => c.nodes.length)).sum := by
  have hm0 := hm.inv.inv0
  have hcol := hm0.collect_begin
  have hmem : ∀ k v, (k, v) ∈ entries m ↔ Has m k v := fun k v => hm0.mem_entries (k, v)
  refine ⟨entries m, ⟨_, hcol⟩, ?_, hm0.entries_length, hm0.entries_nodup, ?_, ?_, hm0.size_eq⟩
  · intro fuel l1 h
    have a := collect_mono_le (Nat.le_max_left fuel (m.size_ + 1)) h
    rw [hcol _ (Nat.le_max_right fuel (m.size_ + 1))] at a
    exact (Option.some.inj a).symm
  · intro k
    rw [hm0.find_ne_end_iff]
    constructor
    · intro h
      obtain ⟨p, hp, rfl⟩ := List.mem_map.1 h
      exact ⟨p.2, (hmem p.1 p.2).1 hp⟩
    · rintro ⟨v, hv⟩
      exact List.mem_map.2 ⟨(k, v), (hmem k v).2 hv, rfl⟩
  · intro k v
    rw [hmem, hm0.deref_find_iff]

theorem traversal_complete_witness :
    Reachable exThree ∧
    ∃ l, (∃ N, ∀ fuel, N ≤ fuel → collect fuel exThree (begin exThree) = some l) ∧
      (∀ fuel l1, collect fuel exThree (begin exThree) = some l1 → l1 = l) ∧
      l.length = size exThree ∧ (l.map Prod.fst).Nodup ∧
      (∀ k, k ∈ l.map Prod.fst ↔ find exThree k ≠ end_ exThree) ∧
      (∀ k v, (k, v) ∈ l ↔
        (find exThree k ≠ end_ exThree ∧ deref exThree (find exThree k) = some (k, v))) ∧
      size exThree = (exThree.table_.map (fun c => c.nodes.length)).sum :=
  ⟨reachable_exThree, traversal_complete exThree reachable_exThree⟩

end Claims2

section MoreLemmas
variable {K V : Type} [DecidableEq K] [Inhabited V]

theorem reachable_exFour : Reachable exFour :=
  Reachable.insert reachable_exThree (rfl : insert 6 exThree (3, 13) = some exFour)

end MoreLemmas

section FoldInsert
variable {K V : Type} [DecidableEq K]

theorem foldlM_insert_mono_le {fuel fuel1 : Nat} (hle : fuel ≤ fuel1) :
    ∀ (l : List (K × V)) (m r : HashMap K V),
      l.foldlM (insert fuel) m = some r → l.foldlM (insert fuel1) m = some r :=
  foldlM_mono (fun _ _ _ h => insert_mono_le hle h)

theorem Inv.has_step {m m1 : HashMap K V} (hm : Inv m) {p : K × V}
    (h1 : ∀ k v, Has m1 k v ↔ Has m k v ∨ (counts m p.1 = false ∧ (k, v) = p))
    (l : List (K × V)) (k : K) (v : V) :
    (Has m1 k v ∨ ((∀ w, ¬ Has m1 k w) ∧
        l.find? (fun q => decide (q.1 = k)) = some (k, v))) ↔
      (Has m k v ∨ ((∀ w, ¬ Has m k w) ∧
        (p :: l).find? (fun q => decide (q.1 = k)) = some (k, v))) := by
  by_cases hk : p.1 = k
  · have hfind : (p :: l).find? (fun q => decide (q.1 = k)) = some p := by
      simp [List.find?, hk]
    rw [hfind]
    by_cases hc : counts m p.1 = true
    · obtain ⟨w0, hw0⟩ := (hm.inv0.counts_iff _).1 hc
      rw [hk] at hw0
      have hsame : ∀ w, Has m1 k w ↔ Has m k w := by
        intro w
        rw [h1]
        simp [hc]
      constructor
      · rintro (h | ⟨h, _⟩)
        · exact Or.inl ((hsame v).1 h)
        · exact absurd ((hsame w0).2 hw0) (h w0)
      · rintro (h | ⟨h, _⟩)
        · exact Or.inl ((hsame v).2 h)
        · exact absurd hw0 (h w0)
    · have hc0 : counts m p.1 = false := by simpa using hc
      have habs := (hm.inv0.counts_false_iff _).1 hc0
      rw [hk] at habs
      have hp1 : Has m1 k p.2 := by
        rw [h1]
        exact Or.inr ⟨hc0, by rw [← hk]⟩
      constructor
      · rintro (h | ⟨h, _⟩)
        · rcases (h1 k v).1 h with h2 | ⟨_, h2⟩
          · exact absurd h2 (habs v)
          · exact Or.inr ⟨habs, by rw [h2]⟩
        · exact absurd hp1 (h p.2)
      · rintro (h | ⟨_, h⟩)
        · exact absurd h (habs v)
        · left
          rw [h1]
          exact Or.inr ⟨hc0, (Option.some.inj h).symm⟩
  · have hfind : (p :: l).find? (fun q => decide (q.1 = k))
        = l.find? (fun q => decide (q.1 = k)) := by
      simp [List.find?, hk]
    rw [hfind]
    have hsame : ∀ w, Has m1 k w ↔ Has m k w := by
      intro w
      rw [h1]
      constructor
      · rintro (h | ⟨_, h⟩)
        · exact h
        · exact absurd (congrArg Prod.fst h).symm hk
      · exact Or.inl
    rw [hsame v]
    exact or_congr_right (and_congr_left' (forall_congr' (fun w => not_congr (hsame w))))

theorem Inv.foldlM_insert_total :
    ∀ (l : List (K × V)) (m : HashMap K V), Inv m →
      ∃ r, (∀ fuel, m.size_ + l.length + 3 ≤ fuel → l.foldlM (insert fuel) m = some r) ∧
        Inv r ∧ r.hasher_ = m.hasher_ ∧
        ∀ k v, Has r k v ↔
          Has m k v ∨ ((∀ w, ¬ Has m k w) ∧
            l.find? (fun q => decide (q.1 = k)) = some (k, v)) := by
  intro l
  induction l with
  | nil =>
    intro m hm
    exact ⟨m, fun _ _ => rfl, hm, rfl, by simp⟩
  | cons p l ih =>
    intro m hm
    obtain ⟨m1, h1, hinv1, hh1, hpres, habs⟩ := hm.insert_spec p (m.size_ + 3) (Nat.le_refl _)
    have hsz : m1.size_ ≤ m.size_ + 1 := by
      by_cases hc : counts m p.1 = true
      · rw [hpres hc]; omega
      · have hc0 : counts m p.1 = false := by simpa using hc
        rw [(habs hc0).1]
    obtain ⟨r, g1, g2, g3, g4⟩ := ih m1 hinv1
    refine ⟨r, ?_, g2, g3.trans hh1, ?_⟩
    · intro fuel hf
      simp only [List.length_cons] at hf
      rw [List.foldlM_cons, insert_mono_le (by omega) h1]
      exact g1 fuel (by omega)
    · intro k v
      rw [g4]
      exact hm.has_step (hm.has_insert h1) l k v

theorem foldlM_insert_unique {m r r1 : HashMap K V} {l : List (K × V)} {fuel fuel1 : Nat}
    (h : l.foldlM (insert fuel) m = some r) (h1 : l.foldlM (insert fuel1) m = some r1) :
    r1 = r := by
  have a := foldlM_insert_mono_le (Nat.le_max_left fuel fuel1) l m r h
  have b := foldlM_insert_mono_le (Nat.le_max_right fuel fuel1) l m r1 h1
  rw [a] at b
  exact (Option.some.inj b).symm

end FoldInsert

section PlayLemmas
variable {K V : Type} [DecidableEq K]

theorem play_insert {fuel : Nat} {calls : List (Call K V)} {m m1 r : HashMap K V}
    {key : K} {value : V} {a e : Nat}
    (h1 : insert fuel m (key, value) = some m1) (h2 : play fuel calls m1 = some (r, a, e)) :
    play fuel (Call.insert key value :: calls) m
      = some (r, (if counts m key then a else a + 1), e) := by
  simp [play, h1, h2]

theorem play_erase {fuel : Nat} {calls : List (Call K V)} {m r : HashMap K V}
    {key : K} {a e : Nat} (h2 : play fuel calls (erase m key) = some (r, a, e)) :
    play fuel (Call.erase key :: calls) m
      = some (r, a, (if counts m key then e + 1 else e)) := by
  simp [play, h2]

theorem play_insert_inv {fuel : Nat} {calls : List (Call K V)} {m : HashMap K V}
    {key : K} {value : V} {x : HashMap K V × Nat × Nat}
    (h : play fuel (Call.insert key value :: calls) m = some x) :
    ∃ m1 r a e, insert fuel m (key, value) = some m1 ∧
      play fuel calls m1 = some (r, a, e) ∧
      x = (r, (if counts m key then a else a + 1), e) := by
  simp only [play] at h
  cases hi : insert fuel m (key, value) with
  | none => simp [hi] at h
  | some m1 =>
    cases hp : play fuel calls m1 with
    | none => simp [hi, hp] at h
    | some y =>
      obtain ⟨r, a, e⟩ := y
      simp only [hi, hp, Option.some.injEq] at h
      exact ⟨m1, r, a, e, rfl, hp, h.symm⟩

theorem play_erase_inv {fuel : Nat} {calls : List (Call K V)} {m : HashMap K V}
    {key : K} {x : HashMap K V × Nat × Nat}
    (h : play fuel (Call.erase key :: calls) m = some x) :
    ∃ r a e, play fuel calls (erase m key) = some (r, a, e) ∧
      x = (r, a, (if counts m key then e + 1 else e)) := by
  simp only [play] at h
  cases hp : play fuel calls (erase m key) with
  | none => simp [hp] at h
  | some y =>
    obtain ⟨r, a, e⟩ := y
    simp only [hp, Option.some.injEq] at h
    exact ⟨r, a, e, rfl, h.symm⟩

theorem play_mono_le {fuel fuel1 : Nat} (hle : fuel ≤ fuel1) :
    ∀ (calls : List (Call K V)) (m : HashMap K V) (x : HashMap K V × Nat × Nat),
      play fuel calls m = some x → play fuel1 calls m = some x := by
  intro calls
  induction calls with
  | nil => intro m x h; exact h
  | cons c calls ih =>
    intro m x h
    cases c with
    | insert key value =>
      obtain ⟨m1, r, a, e, h1, h2, rfl⟩ := play_insert_inv h
      exact play_insert (insert_mono_le hle h1) (ih _ _ h2)
    | erase key =>
      obtain ⟨r, a, e, h2, rfl⟩ := play_erase_inv h
      exact play_erase (ih _ _ h2)

theorem Inv.play_total :
    ∀ (calls : List (Call K V)) (m : HashMap K V), Inv m →
      ∃ r a e, (∀ fuel, m.size_ + calls.length + 3 ≤ fuel →
          play fuel calls m = some (r, a, e)) ∧
        Inv r ∧ r.size_ + e = m.size_ + a := by
  intro calls
  induction calls with
  | nil =>
    intro m hm
    exact ⟨m, 0, 0, fun _ _ => rfl, hm, rfl⟩
  | cons c calls ih =>
    intro m hm
    cases c with
    | insert key value =>
      obtain ⟨m1, h1, hinv1, _, hpres, habs⟩ :=
        hm.insert_spec (key, value) (m.size_ + 3) (Nat.le_refl _)
      obtain ⟨r, a, e, g1, g2, g3⟩ := ih m1 hinv1
      by_cases hc : counts m key = true
      · have hm1 : m1 = m := hpres hc
        refine ⟨r, a, e, ?_, g2, ?_⟩
        · intro fuel hf
          simp only [List.length_cons] at hf
          rw [play_insert (insert_mono_le (by omega) h1) (g1 fuel (by rw [hm1]; omega))]
          simp [hc]
        · rw [g3, hm1]
      · have hc0 : counts m key = false := by simpa using hc
        have hs : m1.size_ = m.size_ + 1 := (habs hc0).1
        refine ⟨r, a + 1, e, ?_, g2, ?_⟩
        · intro fuel hf
          simp only [List.length_cons] at hf
          rw [play_insert (insert_mono_le (by omega) h1) (g1 fuel (by rw [hs]; omega))]
          simp [hc0]
        · rw [g3, hs]; omega
    | erase key =>
      obtain ⟨r, a, e, g1, g2, g3⟩ := ih (erase m key) (inv_erase hm key)
      by_cases hc : counts m key = true
      · have hs := erase_size hc
        obtain ⟨v, hv⟩ := (hm.inv0.counts_iff key).1 hc
        have hpos := hm.inv0.size_pos (List.ne_nil_of_mem hv)
        refine ⟨r, a, e + 1, ?_, g2, ?_⟩
        · intro fuel hf
          simp only [List.length_cons] at hf
          rw [play_erase (g1 fuel (by rw [hs]; omega))]
          simp [hc]
        · rw [hs] at g3; omega
      · have hc0 : counts m key = false := by simpa using hc
        have he : erase m key = m := erase_absent hc0
        refine ⟨r, a, e, ?_, g2, ?_⟩
        · intro fuel hf
          simp only [List.length_cons] at hf
          rw [play_erase (g1 fuel (by rw [he]; omega))]
          simp [hc0]
        · rw [g3, he]

end PlayLemmas

section Claim12
variable {K V : Type} [DecidableEq K]

theorem Inv.insert_absent_step {m : HashMap K V} (hm : Inv m) (p : K × V)
    (habs : ∀ w, ¬ Has m p.1 w) :
    ∃ r, (∀ fuel, m.size_ + 3 ≤ fuel → insert fuel m p = some r) ∧ Inv r ∧
      r.size_ = m.size_ + 1 ∧
      r.cap_ = (if m.cap_ ≤ (m.size_ + 1) * rehash_enlarge_coaf then 2 * m.cap_
                else m.cap_) ∧
      ∀ k v, Has r k v ↔ Has m k v ∨ (k, v) = p := by
  have hc := (hm.inv0.counts_false_iff _).2 habs
  obtain ⟨r, h1, h2, _, _, h5⟩ := hm.insert_spec p (m.size_ + 3) (Nat.le_refl _)
  exact ⟨r, fun fuel hf => insert_mono_le hf h1, h2, (h5 hc).1, (h5 hc).2.1, (h5 hc).2.2⟩

theorem insert_one_no_rehash {m r : HashMap K V} {p : K × V}
    (h : insert 1 m p = some r) :
    (counts m p.1 = true ∧ r = m) ∨
      (counts m p.1 = false ∧
        (push_node m p).size_ * rehash_enlarge_coaf < (push_node m p).cap_ ∧
        r = push_node m p) := by
  rw [insert_succ] at h
  by_cases hc : counts m p.1 = true
  · rw [if_pos hc] at h
    exact Or.inl ⟨hc, (Option.some.inj h).symm⟩
  · rw [if_neg hc] at h
    by_cases hg : (push_node m p).size_ * rehash_enlarge_coaf ≥ (push_node m p).cap_
    · rw [if_pos hg] at h
      simp [rehash, collect] at h
    · rw [if_neg hg] at h
      exact Or.inr ⟨by simpa using hc, Nat.lt_of_not_le hg, (Option.some.inj h).symm⟩

theorem Inv.insert_grow_spec {m : HashMap K V} (hm : Inv m) (p : K × V)
    (hc : counts m p.1 = false) (hg : m.cap_ ≤ (m.size_ + 1) * rehash_enlarge_coaf) :
    ∃ r, (∀ fuel, m.size_ + 3 ≤ fuel → insert fuel m p = some r) ∧
      (∀ fuel, m.size_ + 2 ≤ fuel →
        collect fuel (push_node m p) (begin (push_node m p))
          = some (entries (push_node m p))) ∧
      (entries (push_node m p)).foldlM (insert 1) (reset (push_node m p) (2 * m.cap_))
        = some r ∧
      ∀ n, ∃ t, ((entries (push_node m p)).take n).foldlM (insert 1)
            (reset (push_node m p) (2 * m.cap_)) = some t ∧
          t.size_ = min n (m.size_ + 1) ∧ t.cap_ = 2 * m.cap_ ∧
          t.size_ * rehash_enlarge_coaf < t.cap_ := by
  have hload := hm.load
  have hcap := hm.inv0.cap_ge
  simp only [rehash_enlarge_coaf, default_capacity] at hload hcap hg
  have habs := (hm.inv0.counts_false_iff _).1 hc
  have hm1 := inv0_push_node hm.inv0 p habs
  have hm2 : Inv0 (reset (push_node m p) (2 * m.cap_)) :=
    inv0_reset hm1 (by simp only [default_capacity]; omega)
  have hlen : (entries (push_node m p)).length = m.size_ + 1 := by
    rw [hm1.entries_length, push_node_size]
  have hcol : ∀ fuel, m.size_ + 2 ≤ fuel →
      collect fuel (push_node m p) (begin (push_node m p))
        = some (entries (push_node m p)) :=
    fun fuel hf => hm1.collect_begin fuel (by rw [push_node_size]; omega)
  have hpre : ∀ n, ∃ t, ((entries (push_node m p)).take n).foldlM (insert 1)
        (reset (push_node m p) (2 * m.cap_)) = some t ∧
      t.size_ = min n (m.size_ + 1) ∧ t.cap_ = 2 * m.cap_ ∧
      t.size_ * rehash_enlarge_coaf < t.cap_ := by
    intro n
    have hl : ((entries (push_node m p)).take n).length = min n (m.size_ + 1) := by
      rw [List.length_take, hlen]
    obtain ⟨t, h1, _, h3, _, h5, _⟩ :=
      foldlM_insert 0 ((entries (push_node m p)).take n)
        (reset (push_node m p) (2 * m.cap_)) hm2
        (hm1.entries_nodup.sublist ((List.take_sublist _ _).map _))
        (fun q _ v => not_has_of_allEmpty (hm1.reset_allEmpty _) q.1 v)
        (by rw [reset_size, reset_cap, hl]
            simp only [rehash_enlarge_coaf]; omega)
    rw [reset_cap] at h3
    rw [reset_size, hl, Nat.zero_add] at h5
    refine ⟨t, h1, h5, h3, ?_⟩
    rw [h3, h5]
    simp only [rehash_enlarge_coaf]; omega
  obtain ⟨r, h1, _⟩ := hm.insert_spec p (m.size_ + 3) (Nat.le_refl _)
  refine ⟨r, fun fuel hf => insert_mono_le hf h1, hcol, ?_, hpre⟩
  obtain ⟨t, ht, _⟩ := hpre (m.size_ + 1)
  rw [← hlen, List.take_length] at ht
  have hbig := foldlM_insert_mono_le (Nat.le_add_left 1 (m.size_ + 1)) _ _ _ ht
  have hr : insert (m.size_ + 2 + 1) m p = some r := h1
  rw [insert_grow _ hc (by simp only [rehash_enlarge_coaf]; omega), rehash,
    hcol _ (Nat.le_refl _)] at hr
  have hr2 : (entries (push_node m p)).foldlM (insert (m.size_ + 2))
      (reset (push_node m p) (2 * m.cap_)) = some r := hr
  have e : m.size_ + 1 + 1 = m.size_ + 2 := rfl
  rw [e, hr2] at hbig
  rw [ht, ← Option.some.inj hbig]

end Claim12

section Claim12b
variable {K V : Type} [DecidableEq K] [Inhabited V]

/-- C12: on a reachable table with capacity `C` and size `s`, `insert(k, v)` of
a key `find` does not reach returns and leaves capacity `2 * C` when
`(s + 1) * 2 >= C` and `C` otherwise.  In the first case the traversal `tmp`
of the table is re-inserted into the cleared table of capacity `2 * C` by
calls of `insert` that return with one unit of fuel, that is without calling
`rehash`: after each of them the size is below half the capacity `2 * C`.
Scenario: inserting the keys 0, 1, 2, 3 in this order into an empty table
leaves capacity 8 after each of the first three, capacity 16 and size 4 after
the fourth, and `at` then returns the value given for each key. -/
theorem growth_policy :
    (∀ (m : HashMap K V), Reachable m → ∀ (k : K) (v : V), find m k = end_ m →
      ∃ r, (∃ N, ∀ fuel, N ≤ fuel → insert fuel m (k, v) = some r) ∧
        (∀ fuel r1, insert fuel m (k, v) = some r1 → r1 = r) ∧
        capacity r = (if capacity m ≤ (size m + 1) * rehash_enlarge_coaf
                      then 2 * capacity m else capacity m) ∧
        (capacity m ≤ (size m + 1) * rehash_enlarge_coaf →
          ∃ tmp, (∃ N, ∀ fuel, N ≤ fuel →
                collect fuel (push_node m (k, v)) (begin (push_node m (k, v))) = some tmp) ∧
            tmp.foldlM (insert 1) (reset (push_node m (k, v)) (2 * capacity m)) = some r ∧
            ∀ n, ∃ t, (tmp.take n).foldlM (insert 1)
                  (reset (push_node m (k, v)) (2 * capacity m)) = some t ∧
                size t = min n (size m + 1) ∧ capacity t = 2 * capacity m ∧
                size t * rehash_enlarge_coaf < capacity t)) ∧
    (∀ (hasher : Nat → Nat) (v0 v1 v2 v3 : V),
      ∃ m1 m2 m3 m4 : HashMap Nat V,
        (∃ N, ∀ fuel, N ≤ fuel →
          insert fuel (new hasher) (0, v0) = some m1 ∧ insert fuel m1 (1, v1) = some m2 ∧
          insert fuel m2 (2, v2) = some m3 ∧ insert fuel m3 (3, v3) = some m4) ∧
        capacity m1 = 8 ∧ capacity m2 = 8 ∧ capacity m3 = 8 ∧ capacity m4 = 16 ∧
        size m4 = 4 ∧ at_ m4 0 = .ok v0 ∧ at_ m4 1 = .ok v1 ∧ at_ m4 2 = .ok v2 ∧
        at_ m4 3 = .ok v3) := by
  constructor
  · intro m hm k v habs
    have hc : counts m k = false := find_eq_end_of_counts.2 habs
    obtain ⟨r, h1, h2, _, _, _, _⟩ := hm.inv.insert_total (k, v)
    obtain ⟨r0, g1, _, _, _, g5⟩ := hm.inv.insert_spec (k, v) (m.size_ + 3) (Nat.le_refl _)
    have er : r0 = r := h2 _ _ g1
    subst er
    refine ⟨r0, ⟨_, h1⟩, h2, (g5 hc).2.1, ?_⟩
    intro hg
    obtain ⟨r1, a1, a2, a3, a4⟩ := hm.inv.insert_grow_spec (k, v) hc hg
    have er : r1 = r0 := h2 _ _ (a1 _ (Nat.le_refl _))
    subst er
    exact ⟨entries (push_node m (k, v)), ⟨_, a2⟩, a3, a4⟩
  · intro hasher v0 v1 v2 v3
    have h0 : Inv (new hasher : HashMap Nat V) := inv_new hasher
    have hs0 : (new hasher : HashMap Nat V).size_ = 0 := rfl
    have hc0 : (new hasher : HashMap Nat V).cap_ = 8 := rfl
    have hn0 : ∀ k w, ¬ Has (new hasher : HashMap Nat V) k w := by
      intro k w
      exact not_has_of_allEmpty
        (fun i => h0.inv0.not_filled i (by simp [new, default_init])) k w
    obtain ⟨m1, a1, i1, s1, c1, e1⟩ := h0.insert_absent_step (0, v0) (fun w => hn0 0 w)
    rw [hs0] at s1
    rw [hs0, hc0] at c1
    simp only [rehash_enlarge_coaf] at c1
    norm_num at c1 s1
    have n1 : ∀ w, ¬ Has m1 1 w := by
      intro w h
      rcases (e1 1 w).1 h with h | h
      · exact hn0 _ _ h
      · simp at h
    obtain ⟨m2, a2, i2, s2, c2, e2⟩ := i1.insert_absent_step (1, v1) n1
    rw [s1] at s2
    rw [s1, c1] at c2
    simp only [rehash_enlarge_coaf] at c2
    norm_num at c2 s2
    have n2 : ∀ w, ¬ Has m2 2 w := by
      intro w h
      rcases (e2 2 w).1 h with h | h
      · rcases (e1 2 w).1 h with h | h
        · exact hn0 _ _ h
        · simp at h
      · simp at h
    obtain ⟨m3, a3, i3, s3, c3, e3⟩ := i2.insert_absent_step (2, v2) n2
    rw [s2] at s3
    rw [s2, c2] at c3
    simp only [rehash_enlarge_coaf] at c3
    norm_num at c3 s3
    have n3 : ∀ w, ¬ Has m3 3 w := by
      intro w h
      rcases (e3 3 w).1 h with h | h
      · rcases (e2 3 w).1 h with h | h
        · rcases (e1 3 w).1 h with h | h
          · exact hn0 _ _ h
          · simp at h
        · simp at h
      · simp at h
    obtain ⟨m4, a4, i4, s4, c4, e4⟩ := i3.insert_absent_step (3, v3) n3
    rw [s3] at s4
    rw [s3, c3] at c4
    simp only [rehash_enlarge_coaf] at c4
    norm_num at c4 s4
    refine ⟨m1, m2, m3, m4, ⟨6, fun fuel hf => ⟨a1 fuel ?_, a2 fuel ?_, a3 fuel ?_, a4 fuel ?_⟩⟩,
      c1, c2, c3, c4, s4, ?_, ?_, ?_, ?_⟩
    · rw [hs0]; omega
    · rw [s1]; omega
    · rw [s2]; omega
    · rw [s3]; omega
    · apply i4.inv0.at_of_has
      rw [e4, e3, e2, e1]
      simp
    · apply i4.inv0.at_of_has
      rw [e4, e3, e2]
      simp
    · apply i4.inv0.at_of_has
      rw [e4, e3]
      simp
    · apply i4.inv0.at_of_has
      rw [e4]
      simp

theorem growth_policy_witness :
    Reachable exThree ∧ find exThree 3 = end_ exThree ∧
    ∃ r, (∃ N, ∀ fuel, N ≤ fuel → insert fuel exThree (3, 13) = some r) ∧
      (∀ fuel r1, insert fuel exThree (3, 13) = some r1 → r1 = r) ∧
      capacity r = (if capacity exThree ≤ (size exThree + 1) * rehash_enlarge_coaf
                    then 2 * capacity exThree else capacity exThree) ∧
      (capacity exThree ≤ (size exThree + 1) * rehash_enlarge_coaf →
        ∃ tmp, (∃ N, ∀ fuel, N ≤ fuel →
              collect fuel (push_node exThree (3, 13)) (begin (push_node exThree (3, 13)))
                = some tmp) ∧
          tmp.foldlM (insert 1) (reset (push_node exThree (3, 13)) (2 * capacity exThree))
            = some r ∧
          ∀ n, ∃ t, (tmp.take n).foldlM (insert 1)
                (reset (push_node exThree (3, 13)) (2 * capacity exThree)) = some t ∧
              size t = min n (size exThree + 1) ∧ capacity t = 2 * capacity exThree ∧
              size t * rehash_enlarge_coaf < capacity t) :=
  ⟨reachable_exThree, by decide,
    (@growth_policy Nat Nat _ _).1 exThree reachable_exThree 3 13 (by decide)⟩

end Claim12b

section Claim13
variable {K V : Type} [DecidableEq K]

theorem find?_key_some {l : List (K × V)} {k : K} {x : K × V}
    (h : l.find? (fun q => decide (q.1 = k)) = some x) : x.1 = k ∧ x ∈ l :=
  ⟨by simpa using List.find?_some h, List.mem_of_find?_eq_some h⟩

theorem find?_key_mem {l : List (K × V)} {k : K} (h : k ∈ l.map Prod.fst) :
    ∃ v, l.find? (fun q => decide (q.1 = k)) = some (k, v) := by
  cases hf : l.find? (fun q => decide (q.1 = k)) with
  | none =>
    rw [List.find?_eq_none] at hf
    obtain ⟨p, hp, hpe⟩ := List.mem_map.1 h
    exact absurd (by simpa using hpe) (hf p hp)
  | some x =>
    have := (find?_key_some hf).1
    exact ⟨x.2, by rw [← this]⟩

theorem find?_of_nodup {l : List (K × V)} {k : K} {v : V}
    (hn : (l.map Prod.fst).Nodup) (hm : (k, v) ∈ l) :
    l.find? (fun q => decide (q.1 = k)) = some (k, v) := by
  obtain ⟨w, hw⟩ := find?_key_mem (List.mem_map_of_mem Prod.fst hm : k ∈ l.map Prod.fst)
  have hmem := (find?_key_some hw).2
  have := List.inj_on_of_nodup_map hn hmem hm rfl
  rw [hw, this]

theorem Inv0.size_eq_of_keys {m : HashMap K V} (hm : Inv0 m) (ks : List K)
    (hk : ∀ k, (∃ v, Has m k v) ↔ k ∈ ks) : m.size_ = ks.dedup.length := by
  rw [← hm.entries_length, ← List.length_map (entries m) Prod.fst]
  apply List.Perm.length_eq
  rw [List.perm_ext_iff_of_nodup hm.entries_nodup (List.nodup_dedup ks)]
  intro k
  rw [List.mem_dedup, ← hk]
  constructor
  · intro h
    obtain ⟨p, hp, rfl⟩ := List.mem_map.1 h
    exact ⟨p.2, (hm.mem_entries p).1 hp⟩
  · rintro ⟨v, hv⟩
    exact List.mem_map.2 ⟨(k, v), (hm.mem_entries (k, v)).2 hv, rfl⟩

theorem not_has_new (hasher : K → Nat) (k : K) (v : V) :
    ¬ Has (new hasher : HashMap K V) k v :=
  not_has_of_allEmpty
    (fun i => (inv_new hasher).inv0.not_filled i (by simp [new, default_init])) k v

theorem from_range_spec (hasher : K → Nat) (l : List (K × V)) :
    ∃ r, (∀ fuel, l.length + 3 ≤ fuel → l.foldlM (insert fuel) (new hasher) = some r) ∧
      (∀ fuel r1, l.foldlM (insert fuel) (new hasher) = some r1 → r1 = r) ∧ Inv r ∧
      (∀ k v, Has r k v ↔ l.find? (fun q => decide (q.1 = k)) = some (k, v)) ∧
      r.size_ = (l.map Prod.fst).dedup.length := by
  obtain ⟨r, h1, h2, _, h4⟩ := (inv_new hasher).foldlM_insert_total l
  have hs0 : (new hasher : HashMap K V).size_ = 0 := rfl
  have hhas : ∀ k v, Has r k v ↔ l.find? (fun q => decide (q.1 = k)) = some (k, v) := by
    intro k v
    rw [h4]
    constructor
    · rintro (h | ⟨_, h⟩)
      · exact absurd h (not_has_new hasher k v)
      · exact h
    · exact fun h => Or.inr ⟨fun w => not_has_new hasher k w, h⟩
  have hfu : ∀ fuel, l.length + 3 ≤ fuel → l.foldlM (insert fuel) (new hasher) = some r := by
    intro fuel hf
    exact h1 fuel (by rw [hs0]; omega)
  refine ⟨r, hfu, ?_, h2, hhas, ?_⟩
  · intro fuel r1 hr
    exact foldlM_insert_unique (hfu _ (Nat.le_refl _)) hr
  · apply h2.inv0.size_eq_of_keys
    intro k
    constructor
    · rintro ⟨v, hv⟩
      have := (find?_key_some ((hhas k v).1 hv)).2
      exact List.mem_map.2 ⟨(k, v), this, rfl⟩
    · intro hk
      obtain ⟨v, hv⟩ := find?_key_mem hk
      exact ⟨v, (hhas k v).2 hv⟩

/-- C13: for every list `l` of pairs, both the range constructor and the
initializer-list constructor return the same table; its `size()` is the number
of distinct keys of `l`, every key of `l` is found with the value of its first
occurrence in `l`, and no other key is found.  Scenario: the list
`{(a, v1), (b, v2), (a, v3)}` with `a != b` gives size 2 with `a -> v1` and
`b -> v2`. -/
theorem bulk_construction :
    (∀ (hasher : K → Nat) (l : List (K × V)),
      ∃ r, (∃ N, ∀ fuel, N ≤ fuel →
              from_range fuel hasher l = some r ∧
              from_initializer_list fuel hasher l = some r) ∧
        (∀ fuel r1, from_range fuel hasher l = some r1 ∨
            from_initializer_list fuel hasher l = some r1 → r1 = r) ∧
        size r = (l.map Prod.fst).dedup.length ∧
        (∀ k, k ∈ l.map Prod.fst →
          ∃ v, l.find? (fun q => decide (q.1 = k)) = some (k, v) ∧
            find r k ≠ end_ r ∧ deref r (find r k) = some (k, v) ∧ at_ r k = .ok v) ∧
        (∀ k, k ∉ l.map Prod.fst →
          find r k = end_ r ∧ at_ r k = .error .out_of_range)) ∧
    (∀ (hasher : K → Nat) (a b : K) (v1 v2 v3 : V), a ≠ b →
      ∃ r, (∃ N, ∀ fuel, N ≤ fuel →
              from_initializer_list fuel hasher [(a, v1), (b, v2), (a, v3)] = some r) ∧
        size r = 2 ∧ at_ r a = .ok v1 ∧ at_ r b = .ok v2) := by
  have main : ∀ (hasher : K → Nat) (l : List (K × V)),
      ∃ r, (∃ N, ∀ fuel, N ≤ fuel →
              from_range fuel hasher l = some r ∧
              from_initializer_list fuel hasher l = some r) ∧
        (∀ fuel r1, from_range fuel hasher l = some r1 ∨
            from_initializer_list fuel hasher l = some r1 → r1 = r) ∧
        size r = (l.map Prod.fst).dedup.length ∧
        (∀ k, k ∈ l.map Prod.fst →
          ∃ v, l.find? (fun q => decide (q.1 = k)) = some (k, v) ∧
            find r k ≠ end_ r ∧ deref r (find r k) = some (k, v) ∧ at_ r k = .ok v) ∧
        (∀ k, k ∉ l.map Prod.fst →
          find r k = end_ r ∧ at_ r k = .error .out_of_range) := by
    intro hasher l
    obtain ⟨r, h1, h2, h3, h4, h5⟩ := from_range_spec hasher l
    refine ⟨r, ⟨_, fun fuel hf => ⟨h1 fuel hf, h1 fuel hf⟩⟩, ?_, h5, ?_, ?_⟩
    · rintro fuel r1 (h | h)
      · exact h2 fuel r1 h
      · exact h2 fuel r1 h
    · intro k hk
      obtain ⟨v, hv⟩ := find?_key_mem hk
      have hhas := (h4 k v).2 hv
      exact ⟨v, hv, (h3.inv0.find_of_has hhas).1, (h3.inv0.find_of_has hhas).2,
        h3.inv0.at_of_has hhas⟩
    · intro k hk
      have hno : ∀ v, ¬ Has r k v := by
        intro v hv
        have := (find?_key_some ((h4 k v).1 hv)).2
        exact hk (List.mem_map.2 ⟨(k, v), this, rfl⟩)
      exact ⟨find_of_not_mem hno, at_of_not_has hno⟩
  refine ⟨main, ?_⟩
  intro hasher a b v1 v2 v3 hab
  obtain ⟨r, ⟨N, h1⟩, _, h3, h4, _⟩ := main hasher [(a, v1), (b, v2), (a, v3)]
  refine ⟨r, ⟨N, fun fuel hf => (h1 fuel hf).2⟩, ?_, ?_, ?_⟩
  · rw [h3]
    have hba : ¬ b = a := fun e => hab e.symm
    simp [List.dedup_cons_of_mem, List.dedup_cons_of_not_mem, hab, hba]
  · obtain ⟨v, hv, _, _, hat⟩ := h4 a (by simp)
    simp at hv
    rw [hat, hv]
  · obtain ⟨v, hv, _, _, hat⟩ := h4 b (by simp)
    simp [hab] at hv
    rw [hat, hv]

theorem bulk_construction_witness :
    (0 : Nat) ≠ 1 ∧
    ∃ r, (∃ N, ∀ fuel, N ≤ fuel →
            from_initializer_list fuel exHash [(0, 1), (1, 2), (0, 3)] = some r) ∧
      size r = 2 ∧ at_ r 0 = .ok 1 ∧ at_ r 1 = .ok 2 :=
  ⟨by decide, (@bulk_construction Nat Nat _).2 exHash 0 1 1 2 3 (by decide)⟩

end Claim13

section Claim11b
variable {K V : Type} [DecidableEq K]

theorem Inv0.mem_storedKeys {m : HashMap K V} (hm : Inv0 m) (k : K) :
    k ∈ storedKeys m ↔ ∃ v, Has m k v := by
  rw [storedKeys, List.mem_toFinset]
  constructor
  · intro h
    obtain ⟨p, hp, rfl⟩ := List.mem_map.1 h
    exact ⟨p.2, (hm.mem_entries p).1 hp⟩
  · rintro ⟨v, hv⟩
    exact List.mem_map.2 ⟨(k, v), (hm.mem_entries (k, v)).2 hv, rfl⟩

theorem Inv.added_eq_card :
    ∀ (calls : List (Call K V)) (m : HashMap K V), Inv m → noReinsert calls = true →
      ∀ fuel r a e, play fuel calls m = some (r, a, e) →
        a = ((insertedKeys calls).toFinset \ storedKeys m).card := by
  intro calls
  induction calls with
  | nil =>
    intro m _ _ fuel r a e h
    simp only [play, Option.some.injEq, Prod.mk.injEq] at h
    simp [insertedKeys, ← h.2.1]
  | cons c calls ih =>
    intro m hm hno fuel r a e h
    cases c with
    | insert key value =>
      obtain ⟨m1, r1, a1, e1, h1, h2, h3⟩ := play_insert_inv h
      simp only [Prod.mk.injEq] at h3
      obtain ⟨hinv1, _, hpres, habs⟩ := hm.insert_result h1
      have hno1 : noReinsert calls = true := by simpa [noReinsert] using hno
      have hrec := ih m1 hinv1 hno1 fuel r1 a1 e1 h2
      by_cases hc : counts m key = true
      · have hm1 : m1 = m := hpres hc
        have hk : key ∈ storedKeys m :=
          (hm.inv0.mem_storedKeys key).2 ((hm.inv0.counts_iff key).1 hc)
        rw [h3.2.1, if_pos hc, hrec, hm1]
        congr 1
        ext x
        simp only [insertedKeys, List.toFinset_cons, Finset.mem_sdiff, Finset.mem_insert]
        constructor
        · exact fun h => ⟨Or.inr h.1, h.2⟩
        · rintro ⟨h | h, h2⟩
          · exact absurd (h ▸ hk) h2
          · exact ⟨h, h2⟩
      · have hc0 : counts m key = false := by simpa using hc
        have hk : key ∉ storedKeys m := by
          rw [hm.inv0.mem_storedKeys, ← hm.inv0.counts_iff]
          exact hc
        have hst : ∀ x, x ∈ storedKeys m1 ↔ x = key ∨ x ∈ storedKeys m := by
          intro x
          rw [hinv1.inv0.mem_storedKeys, hm.inv0.mem_storedKeys]
          constructor
          · rintro ⟨v, hv⟩
            rcases ((habs hc0).2.2 x v).1 hv with h | h
            · exact Or.inr ⟨v, h⟩
            · exact Or.inl (congrArg Prod.fst h)
          · rintro (h | ⟨v, hv⟩)
            · exact ⟨value, ((habs hc0).2.2 x value).2 (Or.inr (by rw [h]))⟩
            · exact ⟨v, ((habs hc0).2.2 x v).2 (Or.inl hv)⟩
        rw [h3.2.1, if_neg hc, hrec]
        have hset : (insertedKeys (Call.insert key value :: calls)).toFinset \ storedKeys m
            = Insert.insert key ((insertedKeys calls).toFinset \ storedKeys m1) := by
          ext x
          simp only [insertedKeys, List.toFinset_cons, Finset.mem_sdiff, Finset.mem_insert,
            hst]
          constructor
          · rintro ⟨h | h, h2⟩
            · exact Or.inl h
            · by_cases hx : x = key
              · exact Or.inl hx
              · exact Or.inr ⟨h, fun h3 => h3.elim hx h2⟩
          · rintro (h | ⟨h, h2⟩)
            · exact ⟨Or.inl h, h ▸ hk⟩
            · exact ⟨Or.inr h, fun h3 => h2 (Or.inr h3)⟩
        have hnot : key ∉ (insertedKeys calls).toFinset \ storedKeys m1 := by
          intro h
          rw [Finset.mem_sdiff] at h
          exact h.2 ((hst key).2 (Or.inl rfl))
        rw [hset, Finset.card_insert_of_not_mem hnot]
    | erase key =>
      obtain ⟨r1, a1, e1, h2, h3⟩ := play_erase_inv h
      simp only [Prod.mk.injEq] at h3
      have hno1 : key ∉ insertedKeys calls ∧ noReinsert calls = true := by
        simpa [noReinsert] using hno
      have hrec := ih (erase m key) (inv_erase hm key) hno1.2 fuel r1 a1 e1 h2
      have hst : ∀ x, x ∈ storedKeys (erase m key) ↔ x ∈ storedKeys m ∧ x ≠ key := by
        intro x
        rw [(inv0_erase hm.inv0 key).mem_storedKeys, hm.inv0.mem_storedKeys]
        constructor
        · rintro ⟨v, hv⟩
          exact ⟨⟨v, ((hm.inv0.has_erase key x v).1 hv).1⟩, ((hm.inv0.has_erase key x v).1 hv).2⟩
        · rintro ⟨⟨v, hv⟩, hne⟩
          exact ⟨v, (hm.inv0.has_erase key x v).2 ⟨hv, hne⟩⟩
      rw [h3.2.1, hrec]
      congr 1
      ext x
      simp only [insertedKeys, Finset.mem_sdiff, List.mem_toFinset, hst, not_and, not_not]
      constructor
      · rintro ⟨h, h2⟩
        refine ⟨h, fun h3 => ?_⟩
        have := h2 h3
        exact hno1.1 (this ▸ h)
      · rintro ⟨h, h2⟩
        exact ⟨h, fun h3 => absurd h3 h2⟩

theorem storedKeys_new (hasher : K → Nat) :
    storedKeys (new hasher : HashMap K V) = ∅ := by
  ext x
  rw [(inv_new hasher).inv0.mem_storedKeys]
  simp only [Finset.not_mem_empty, iff_false]
  rintro ⟨v, hv⟩
  exact not_has_new hasher x v hv

end Claim11b

section Claim11
variable {K V : Type} [DecidableEq K]

/-- C11, as stated, fails: after `insert({1, 10}); erase(1); insert({1, 10});`
on an empty table `size()` is 1, while one distinct key was passed to `insert`
and one `erase` call removed an entry, which gives 1 - 1 = 0. -/
theorem size_accounting_counterexample :
    ∃ r a e, play 4 exCalls (new exHash) = some (r, a, e) ∧ size r = 1 ∧
      (insertedKeys exCalls).dedup.length = 1 ∧ e = 1 ∧
      size r ≠ (insertedKeys exCalls).dedup.length - e :=
  ⟨_, _, _, rfl, rfl, by decide, rfl, by decide⟩

/-- C11, amended: for every finite sequence of `insert` and `erase` calls on an
initially empty table the run returns, and `size()` afterwards equals the
number of `insert` calls that added an entry (their key was not stored when
they were made) minus the number of `erase` calls that removed an entry.  When
no key is passed to `insert` after it was passed to `erase`, the number of
adding `insert` calls is the number of distinct keys passed to `insert`, and
`size()` is that number minus the number of removing `erase` calls. -/
theorem size_accounting (hasher : K → Nat) (calls : List (Call K V)) :
    ∃ r a e, (∃ N, ∀ fuel, N ≤ fuel → play fuel calls (new hasher) = some (r, a, e)) ∧
      (∀ fuel x, play fuel calls (new hasher) = some x → x = (r, a, e)) ∧
      size r + e = a ∧ size r = a - e ∧
      (noReinsert calls = true →
        a = (insertedKeys calls).dedup.length ∧
        size r = (insertedKeys calls).dedup.length - e) := by
  obtain ⟨r, a, e, h1, _, h3⟩ := (inv_new hasher).play_total calls
  have h0 : (new hasher : HashMap K V).size_ = 0 := rfl
  rw [h0, Nat.zero_add] at h3
  have hsub : size r = a - e := by simp only [size]; omega
  refine ⟨r, a, e, ⟨_, h1⟩, ?_, h3, hsub, ?_⟩
  · intro fuel x hx
    have a1 := play_mono_le (Nat.le_max_left fuel (0 + calls.length + 3)) _ _ _ hx
    have b1 : play (max fuel (0 + calls.length + 3)) calls (new hasher) = some (r, a, e) :=
      h1 _ (Nat.le_max_right fuel (0 + calls.length + 3))
    rw [a1] at b1
    exact Option.some.inj b1
  · intro hno
    have ha := (inv_new hasher).added_eq_card calls (new hasher) hno _ r a e
      (h1 _ (Nat.le_refl _))
    rw [storedKeys_new, Finset.sdiff_empty, List.card_toFinset] at ha
    exact ⟨ha, by rw [← ha]; exact hsub⟩

theorem size_accounting_witness :
    noReinsert exCallsOnce = true ∧
    ∃ r a e, (∃ N, ∀ fuel, N ≤ fuel → play fuel exCallsOnce (new exHash) = some (r, a, e)) ∧
      (∀ fuel x, play fuel exCallsOnce (new exHash) = some x → x = (r, a, e)) ∧
      size r + e = a ∧ size r = a - e ∧
      (noReinsert exCallsOnce = true →
        a = (insertedKeys exCallsOnce).dedup.length ∧
        size r = (insertedKeys exCallsOnce).dedup.length - e) :=
  ⟨by decide, size_accounting exHash exCallsOnce⟩

end Claim11

section Claim14
variable {K V : Type}

theorem allEmpty_mem {t : List (TableCell K V)} (h : AllEmpty t) :
    ∀ c ∈ t, c.nodes = [] := by
  intro c hc
  obtain ⟨i, hi, rfl⟩ := List.mem_iff_getElem.1 hc
  have := h i
  rw [List.getD_eq_getElem _ _ hi] at this
  exact this

variable [DecidableEq K] [Inhabited V]

/-- C14: on a reachable table, after `clear()` the size is 0, `empty()` holds,
the capacity is `default_capacity` (8) and the bucket array has that many
cells, every chain is empty, `filled_cells` is empty, `begin()` equals `end()`
and `find(k)` returns the end sentinel for every key. -/
theorem clear_spec (m : HashMap K V) (hm : Reachable m) :
    size (clear m) = 0 ∧ empty (clear m) = true ∧
      capacity (clear m) = default_capacity ∧
      (clear m).table_.length = default_capacity ∧
      (∀ c ∈ (clear m).table_, c.nodes = []) ∧ (clear m).filled_cells = [] ∧
      begin (clear m) = end_ (clear m) ∧ ∀ k, find (clear m) k = end_ (clear m) := by
  have hall := hm.inv.inv0.clear_allEmpty
  refine ⟨rfl, rfl, rfl, ?_, allEmpty_mem hall, rfl, rfl, ?_⟩
  · rw [clear_table, resize_length]
  · intro k
    exact find_of_not_mem (fun v => not_has_of_allEmpty hall k v)

theorem clear_spec_witness :
    Reachable exFour ∧
    (size (clear exFour) = 0 ∧ empty (clear exFour) = true ∧
      capacity (clear exFour) = default_capacity ∧
      (clear exFour).table_.length = default_capacity ∧
      (∀ c ∈ (clear exFour).table_, c.nodes = []) ∧ (clear exFour).filled_cells = [] ∧
      begin (clear exFour) = end_ (clear exFour) ∧
      ∀ k, find (clear exFour) k = end_ (clear exFour)) :=
  ⟨reachable_exFour, clear_spec exFour reachable_exFour⟩

end Claim14

section Claim15
variable {K V : Type} [DecidableEq K]

theorem copy_from_mono_le {fuel fuel1 : Nat} (hle : fuel ≤ fuel1)
    {this other r : HashMap K V} (h : copy_from fuel this other = some r) :
    copy_from fuel1 this other = some r := by
  unfold copy_from at h ⊢
  cases hc : collect fuel other (begin other) with
  | none => simp [hc] at h
  | some l =>
    rw [hc] at h
    rw [collect_mono_le hle hc]
    exact foldlM_insert_mono_le hle _ _ _ h

theorem copy_from_spec {this other : HashMap K V}
    (hthis : ∀ i, i ∉ this.filled_cells.map Prod.snd → (cellAt this i).nodes = [])
    (ho : Inv other) :
    ∃ r, (∀ fuel, other.size_ + 3 ≤ fuel → copy_from fuel this other = some r) ∧
      (∀ fuel r1, copy_from fuel this other = some r1 → r1 = r) ∧ Inv r ∧
      r.hasher_ = other.hasher_ ∧ (∀ k v, Has r k v ↔ Has other k v) ∧
      r.size_ = other.size_ := by
  have hbase : Inv (clear { this with hasher_ := other.hasher_ }) := inv_clear_of hthis
  have hall : AllEmpty (clear { this with hasher_ := other.hasher_ }).table_ :=
    clear_allEmpty_of hthis
  have hempty : ∀ k v, ¬ Has (clear { this with hasher_ := other.hasher_ }) k v :=
    fun k v => not_has_of_allEmpty hall k v
  obtain ⟨r, h1, h2, h3, h4⟩ := hbase.foldlM_insert_total (entries other)
  have hlen := ho.inv0.entries_length
  have hhas : ∀ k v, Has r k v ↔ Has other k v := by
    intro k v
    rw [h4]
    constructor
    · rintro (h | ⟨_, h⟩)
      · exact absurd h (hempty k v)
      · exact (ho.inv0.mem_entries (k, v)).1 (find?_key_some h).2
    · intro h
      exact Or.inr ⟨fun w => hempty k w,
        find?_of_nodup ho.inv0.entries_nodup ((ho.inv0.mem_entries (k, v)).2 h)⟩
  have hfu : ∀ fuel, other.size_ + 3 ≤ fuel → copy_from fuel this other = some r := by
    intro fuel hf
    unfold copy_from
    rw [ho.inv0.collect_begin fuel (by omega)]
    exact h1 fuel (by rw [clear_size, hlen]; omega)
  refine ⟨r, hfu, ?_, h2, h3, hhas, ?_⟩
  · intro fuel r1 hr
    have a := copy_from_mono_le (Nat.le_max_left fuel (other.size_ + 3)) hr
    rw [hfu _ (Nat.le_max_right fuel (other.size_ + 3))] at a
    exact (Option.some.inj a).symm
  · have hk : ∀ k, (∃ v, Has other k v) ↔ k ∈ (entries other).map Prod.fst := by
      intro k
      constructor
      · rintro ⟨v, hv⟩
        exact List.mem_map.2 ⟨(k, v), (ho.inv0.mem_entries (k, v)).2 hv, rfl⟩
      · intro h
        obtain ⟨p, hp, rfl⟩ := List.mem_map.1 h
        exact ⟨p.2, (ho.inv0.mem_entries p).1 hp⟩
    rw [h2.inv0.size_eq_of_keys _ (fun k => by rw [← hk]; exact exists_congr (hhas k)),
      ho.inv0.size_eq_of_keys _ hk]

theorem same_contents {a r : HashMap K V} (ha : Inv0 a) (hr : Inv0 r)
    (hhas : ∀ k v, Has r k v ↔ Has a k v) (hs : r.size_ = a.size_) :
    size r = size a ∧
      ∀ k, (find r k = end_ r ↔ find a k = end_ a) ∧ at_ r k = at_ a k ∧
        ∀ v, (find r k ≠ end_ r ∧ deref r (find r k) = some (k, v)) ↔
          (find a k ≠ end_ a ∧ deref a (find a k) = some (k, v)) := by
  refine ⟨hs, fun k => ⟨?_, ha.at_congr hr (hhas k), fun v => ?_⟩⟩
  · rw [hr.find_eq_end_iff, ha.find_eq_end_iff]
    exact forall_congr' (fun w => not_congr (hhas k w))
  · rw [hr.deref_find_iff, ha.deref_find_iff]
    exact hhas k v

variable [Inhabited V]

/-- C15: for a reachable table `a`, the copy constructor returns a table `r`,
and the copy assignment `b = a` into any reachable `b` returns a table `r`,
with `r.size() = a.size()` and, for every key, the same lookup result in `r`
as in `a`: `find` is the end sentinel in both or designates an entry with the
same value in both, and `at` returns the same.  `a` is a `const` reference
that the functions only read: they have no other table to return. -/
theorem copy_equal_contents (a : HashMap K V) (ha : Reachable a) :
    (∃ r, (∃ N, ∀ fuel, N ≤ fuel → copy_ctor fuel a = some r) ∧
      (∀ fuel r1, copy_ctor fuel a = some r1 → r1 = r) ∧
      size r = size a ∧
      ∀ k, (find r k = end_ r ↔ find a k = end_ a) ∧ at_ r k = at_ a k ∧
        ∀ v, (find r k ≠ end_ r ∧ deref r (find r k) = some (k, v)) ↔
          (find a k ≠ end_ a ∧ deref a (find a k) = some (k, v))) ∧
    (∀ b, Reachable b →
      ∃ r, (∃ N, ∀ fuel, N ≤ fuel → copy_assign fuel b a = some r) ∧
        (∀ fuel r1, copy_assign fuel b a = some r1 → r1 = r) ∧
        size r = size a ∧
        ∀ k, (find r k = end_ r ↔ find a k = end_ a) ∧ at_ r k = at_ a k ∧
          ∀ v, (find r k ≠ end_ r ∧ deref r (find r k) = some (k, v)) ↔
            (find a k ≠ end_ a ∧ deref a (find a k) = some (k, v))) := by
  constructor
  · obtain ⟨r, h1, h2, h3, _, h5, h6⟩ :=
      @copy_from_spec K V _ ⟨0, 0, a.hasher_, [], [], 0⟩ a (fun i _ => rfl) ha.inv
    exact ⟨r, ⟨_, h1⟩, h2, same_contents ha.inv.inv0 h3.inv0 h5 h6⟩
  · intro b hb
    obtain ⟨r, h1, h2, h3, _, h5, h6⟩ := copy_from_spec hb.inv.inv0.not_filled ha.inv
    exact ⟨r, ⟨_, h1⟩, h2, same_contents ha.inv.inv0 h3.inv0 h5 h6⟩

theorem copy_equal_contents_witness :
    Reachable exThree ∧ Reachable exFour ∧
    ((∃ r, (∃ N, ∀ fuel, N ≤ fuel → copy_ctor fuel exThree = some r) ∧
      (∀ fuel r1, copy_ctor fuel exThree = some r1 → r1 = r) ∧
      size r = size exThree ∧
      ∀ k, (find r k = end_ r ↔ find exThree k = end_ exThree) ∧
        at_ r k = at_ exThree k ∧
        ∀ v, (find r k ≠ end_ r ∧ deref r (find r k) = some (k, v)) ↔
          (find exThree k ≠ end_ exThree ∧
            deref exThree (find exThree k) = some (k, v))) ∧
    (∀ b, Reachable b →
      ∃ r, (∃ N, ∀ fuel, N ≤ fuel → copy_assign fuel b exThree = some r) ∧
        (∀ fuel r1, copy_assign fuel b exThree = some r1 → r1 = r) ∧
        size r = size exThree ∧
        ∀ k, (find r k = end_ r ↔ find exThree k = end_ exThree) ∧
          at_ r k = at_ exThree k ∧
          ∀ v, (find r k ≠ end_ r ∧ deref r (find r k) = some (k, v)) ↔
            (find exThree k ≠ end_ exThree ∧
              deref exThree (find exThree k) = some (k, v)))) :=
  ⟨reachable_exThree, reachable_exFour, copy_equal_contents exThree reachable_exThree⟩

end Claim15

section Claim16
variable {K V : Type} [DecidableEq K] [Inhabited V]

/-- C16, as stated, fails: `clear()` on the reachable table `exFour`, whose
capacity is 16, leaves capacity 8. -/
theorem capacity_shrinks_counterexample :
    Reachable exFour ∧ capacity exFour = 16 ∧ capacity (clear exFour) = 8 ∧
      ¬ capacity exFour ≤ capacity (clear exFour) :=
  ⟨reachable_exFour, rfl, rfl, by decide⟩

/-- C16, amended: on a reachable table, `insert` and `operator[]` leave the
capacity as it was or twice that, and `erase` leaves it as it was, so none of
them lowers it; `clear` sets it to `default_capacity` (8), which is at most
the capacity before; the copy and the move assignment start with `clear` and
return a table of capacity at least `default_capacity`. -/
theorem capacity_changes (m : HashMap K V) (hm : Reachable m) :
    (∀ fuel p r, insert fuel m p = some r →
      capacity m ≤ capacity r ∧ (capacity r = capacity m ∨ capacity r = 2 * capacity m)) ∧
    (∀ k, capacity (erase m k) = capacity m) ∧
    (∀ fuel k v r, index fuel m k = some (v, r) →
      capacity m ≤ capacity r ∧ (capacity r = capacity m ∨ capacity r = 2 * capacity m)) ∧
    (capacity (clear m) = default_capacity ∧ capacity (clear m) ≤ capacity m) ∧
    (∀ fuel other r, copy_assign fuel m other = some r ∨ move_assign fuel m other = some r →
      default_capacity ≤ capacity r) := by
  have hins : ∀ fuel p r, insert fuel m p = some r →
      capacity m ≤ capacity r ∧
        (capacity r = capacity m ∨ capacity r = 2 * capacity m) := by
    intro fuel p r h
    obtain ⟨_, _, h3, h4⟩ := hm.inv.insert_result h
    by_cases hc : counts m p.1 = true
    · rw [h3 hc]
      exact ⟨Nat.le_refl _, Or.inl rfl⟩
    · have hc0 : counts m p.1 = false := by simpa using hc
      have hcap := (h4 hc0).2.1
      simp only [capacity]
      split at hcap
      · exact ⟨by omega, Or.inr hcap⟩
      · exact ⟨by omega, Or.inl hcap⟩
  refine ⟨hins, fun k => erase_cap m k, ?_, ⟨rfl, hm.inv.inv0.cap_ge⟩, ?_⟩
  · intro fuel k v r h
    rcases index_state h with ⟨_, e⟩ | ⟨_, e⟩
    · rw [e]
      exact ⟨Nat.le_refl _, Or.inl rfl⟩
    · exact hins fuel _ r e
  · rintro fuel other r (h | h)
    · exact (inv_copy_from hm.inv.inv0.not_filled h).inv0.cap_ge
    · exact (inv_copy_from hm.inv.inv0.not_filled h).inv0.cap_ge

theorem capacity_changes_witness :
    Reachable exThree ∧
    ((∀ fuel p r, insert fuel exThree p = some r →
      capacity exThree ≤ capacity r ∧
        (capacity r = capacity exThree ∨ capacity r = 2 * capacity exThree)) ∧
    (∀ k, capacity (erase exThree k) = capacity exThree) ∧
    (∀ fuel k v r, index fuel exThree k = some (v, r) →
      capacity exThree ≤ capacity r ∧
        (capacity r = capacity exThree ∨ capacity r = 2 * capacity exThree)) ∧
    (capacity (clear exThree) = default_capacity ∧
      capacity (clear exThree) ≤ capacity exThree) ∧
    (∀ fuel other r,
      copy_assign fuel exThree other = some r ∨ move_assign fuel exThree other = some r →
      default_capacity ≤ capacity r)) :=
  ⟨reachable_exThree, capacity_changes exThree reachable_exThree⟩

end Claim16

section Claim17
variable {K V : Type} [DecidableEq K] [Inhabited V]

theorem Inv0.filledExact {m : HashMap K V} (hm : Inv0 m) : FilledExact m := by
  refine ⟨fun i => ?_, hm.idx_nodup⟩
  rw [hm.filled_iff]
  constructor
  · intro h
    refine ⟨?_, h⟩
    have := lt_of_nodes_ne_nil m h
    rw [hm.len_eq] at this
    exact this
  · exact fun h => h.2

/-- C17: in every reachable table `filled_cells` holds a cell index exactly
when that cell exists and its chain is not empty, and holds no index twice;
the same is true of the table `insert` (with or without the grow), `erase`,
`operator[]` and `clear` leave. -/
theorem filled_cells_exact (m : HashMap K V) (hm : Reachable m) :
    FilledExact m ∧ (∀ fuel p r, insert fuel m p = some r → FilledExact r) ∧
      (∀ k, FilledExact (erase m k)) ∧
      (∀ fuel k v r, index fuel m k = some (v, r) → FilledExact r) ∧
      FilledExact (clear m) :=
  ⟨hm.inv.inv0.filledExact,
   fun _ _ _ h => (Reachable.insert hm h).inv.inv0.filledExact,
   fun k => (Reachable.erase k hm).inv.inv0.filledExact,
   fun _ _ _ _ h => (Reachable.index hm h).inv.inv0.filledExact,
   (Reachable.clear hm).inv.inv0.filledExact⟩

theorem filled_cells_exact_witness :
    Reachable exFour ∧
    (FilledExact exFour ∧ (∀ fuel p r, insert fuel exFour p = some r → FilledExact r) ∧
      (∀ k, FilledExact (erase exFour k)) ∧
      (∀ fuel k v r, index fuel exFour k = some (v, r) → FilledExact r) ∧
      FilledExact (clear exFour)) :=
  ⟨reachable_exFour, filled_cells_exact exFour reachable_exFour⟩

end Claim17

section Claim18
variable {K V : Type}

theorem const_skip_eq (m : HashMap K V) :
    ∀ (fuel : Nat) (c : iterator), const_skip fuel m c = skip fuel m c := by
  intro fuel
  induction fuel with
  | zero => intro c; rfl
  | succ f ih =>
    intro c
    rw [const_skip, skip]
    cases listNext m.filled_cells (cellAt m c.cell).it with
    | none => rfl
    | some n =>
      simp only
      rw [ih]

theorem const_incr_eq (m : HashMap K V) (fuel : Nat) (c : iterator) :
    const_incr fuel m c = incr fuel m c := by
  rw [const_incr, incr, const_skip_eq]

theorem const_collect_eq (m : HashMap K V) :
    ∀ (fuel : Nat) (c : iterator), const_collect fuel m c = collect fuel m c := by
  intro fuel
  induction fuel with
  | zero => intro c; rfl
  | succ f ih =>
    intro c
    rw [const_collect, collect, const_incr_eq]
    by_cases he : c = end_ m
    · simp [he]
    · simp only [he, if_false]
      cases deref m c with
      | none => rfl
      | some p =>
        cases incr f m c with
        | none => rfl
        | some c1 =>
          simp only
          rw [ih]

theorem cursors_step {m : HashMap K V} {fuel : Nat} {c c1 : iterator} {l : List iterator}
    (hne : c ≠ end_ m) (hi : incr fuel m c = some c1) (hl : cursors fuel m c1 = some l) :
    cursors (fuel + 1) m c = some (c :: l) := by
  simp [cursors, hne, hi, hl]

theorem cursors_of_collect {m : HashMap K V} :
    ∀ (fuel : Nat) (c : iterator) (l : List (K × V)), collect fuel m c = some l →
      ∃ cs, cursors fuel m c = some cs ∧ cs.map (deref m) = l.map some := by
  intro fuel
  induction fuel with
  | zero => intro c l h; simp [collect] at h
  | succ f ih =>
    intro c l h
    by_cases he : c = end_ m
    · rw [collect] at h
      simp only [he, if_true, Option.some.injEq] at h
      refine ⟨[], by simp [cursors, he], ?_⟩
      rw [← h]; rfl
    · rw [collect] at h
      simp only [he, if_false] at h
      cases hd : deref m c with
      | none => simp [hd] at h
      | some p =>
        cases hi : incr f m c with
        | none => simp [hd, hi] at h
        | some c1 =>
          cases hc : collect f m c1 with
          | none => simp [hd, hi, hc] at h
          | some l1 =>
            simp only [hd, hi, hc, Option.some.injEq] at h
            obtain ⟨cs, h1, h2⟩ := ih c1 l1 hc
            refine ⟨c :: cs, cursors_step he hi h1, ?_⟩
            rw [← h]
            simp [hd, h2]

theorem cursors_mono {m : HashMap K V} :
    ∀ (fuel : Nat) (c : iterator) (l : List iterator),
      cursors fuel m c = some l → cursors (fuel + 1) m c = some l := by
  intro fuel
  induction fuel with
  | zero => intro c l h; simp [cursors] at h
  | succ f ih =>
    intro c l h
    by_cases he : c = end_ m
    · rw [cursors] at h ⊢
      simpa [he] using h
    · rw [cursors] at h
      simp only [he, if_false] at h
      cases hi : incr f m c with
      | none => simp [hi] at h
      | some c1 =>
        cases hc : cursors f m c1 with
        | none => simp [hi, hc] at h
        | some l1 =>
          simp only [hi, hc, Option.some.injEq] at h
          rw [← h]
          exact cursors_step he (incr_mono hi) (ih _ _ hc)

theorem cursors_mono_le {m : HashMap K V} {fuel fuel1 : Nat} {c : iterator}
    {l : List iterator} (hle : fuel ≤ fuel1) (h : cursors fuel m c = some l) :
    cursors fuel1 m c = some l := by
  induction hle with
  | refl => exact h
  | step _ ih => exact cursors_mono _ _ _ ih

variable [DecidableEq K] [Inhabited V]

/-- C18: on a reachable table the walk from `begin()` with `++` until `end()`
returns and visits the chains of the cells listed in `filled_cells`, front to
back, each chain in its order.  The cursors the loop body runs at number
exactly `size()` (one `++` after each, the last one reaching `end()`), each of
them designates an entry (its offset is inside the chain of its cell, which is
therefore not empty), and the entries they designate are that concatenation.
`const_iterator` walks exactly as `iterator` does. -/
theorem traversal_order (m : HashMap K V) (hm : Reachable m) :
    (∃ N, ∀ fuel, N ≤ fuel →
      collect fuel m (begin m)
        = some (m.filled_cells.flatMap (fun n => (cellAt m n.2).nodes))) ∧
    (∃ cs, (∃ N, ∀ fuel, N ≤ fuel → cursors fuel m (begin m) = some cs) ∧
      cs.length = size m ∧
      (∀ c ∈ cs, c ≠ end_ m ∧ c.node < (cellAt m c.cell).nodes.length) ∧
      cs.map (deref m)
        = (m.filled_cells.flatMap (fun n => (cellAt m n.2).nodes)).map some) ∧
    (∀ fuel c, const_incr fuel m c = incr fuel m c) ∧
    (∀ fuel c, const_collect fuel m c = collect fuel m c) := by
  have hm0 := hm.inv.inv0
  have hcol := hm0.collect_begin
  refine ⟨⟨_, hcol⟩, ?_, const_incr_eq m, const_collect_eq m⟩
  obtain ⟨cs, h1, h2⟩ := cursors_of_collect _ _ _ (hcol _ (Nat.le_refl _))
  have hlen : cs.length = size m := by
    have := congrArg List.length h2
    simp only [List.length_map] at this
    rw [this]
    exact hm0.entries_length
  refine ⟨cs, ⟨_, fun fuel hf => cursors_mono_le hf h1⟩, hlen, ?_, h2⟩
  intro c hc
  have hmem : deref m c ∈ cs.map (deref m) := List.mem_map_of_mem _ hc
  rw [h2] at hmem
  obtain ⟨p, _, hp⟩ := List.mem_map.1 hmem
  have hd : (cellAt m c.cell).nodes[c.node]? = some p := hp.symm
  have hlt : c.node < (cellAt m c.cell).nodes.length := by
    by_contra hcon
    rw [List.getElem?_eq_none (Nat.le_of_not_lt hcon)] at hd
    cases hd
  exact ⟨hm0.found_ne_end hlt, hlt⟩

theorem traversal_order_witness :
    Reachable exFour ∧
    ((∃ N, ∀ fuel, N ≤ fuel →
      collect fuel exFour (begin exFour)
        = some (exFour.filled_cells.flatMap (fun n => (cellAt exFour n.2).nodes))) ∧
    (∃ cs, (∃ N, ∀ fuel, N ≤ fuel → cursors fuel exFour (begin exFour) = some cs) ∧
      cs.length = size exFour ∧
      (∀ c ∈ cs, c ≠ end_ exFour ∧ c.node < (cellAt exFour c.cell).nodes.length) ∧
      cs.map (deref exFour)
        = (exFour.filled_cells.flatMap (fun n => (cellAt exFour n.2).nodes)).map some) ∧
    (∀ fuel c, const_incr fuel exFour c = incr fuel exFour c) ∧
    (∀ fuel c, const_collect fuel exFour c = collect fuel exFour c)) :=
  ⟨reachable_exFour, traversal_order exFour reachable_exFour⟩

end Claim18

section Claim19
variable {K V : Type}

theorem Inv0.indexSafe {m : HashMap K V} (hm : Inv0 m) : IndexSafe m := by
  refine ⟨hm.cap_ge, hm.cap_pos, hm.len_eq, hm.hash_lt, ?_⟩
  intro n hn
  have h1 : (cellAt m n.2).nodes ≠ [] :=
    (hm.filled_iff n.2).1 (List.mem_map_of_mem Prod.snd hn)
  have := lt_of_nodes_ne_nil m h1
  rw [hm.len_eq] at this
  exact this

variable [DecidableEq K]

theorem Inv.rehash_step_inv0 {m : HashMap K V} (hm : Inv m) (p : K × V)
    (hc : counts m p.1 = false) (n : Nat) (t : HashMap K V)
    (h : ((entries (push_node m p)).take n).foldlM (insert 1)
      (reset (push_node m p) (2 * m.cap_)) = some t) : Inv0 t := by
  have hload := hm.load
  have hcap := hm.inv0.cap_ge
  simp only [rehash_enlarge_coaf, default_capacity] at hload hcap
  have habs := (hm.inv0.counts_false_iff _).1 hc
  have hm1 := inv0_push_node hm.inv0 p habs
  have hm2 : Inv0 (reset (push_node m p) (2 * m.cap_)) :=
    inv0_reset hm1 (by simp only [default_capacity]; omega)
  have hl : ((entries (push_node m p)).take n).length ≤ m.size_ + 1 := by
    rw [List.length_take, hm1.entries_length, push_node_size]
    exact Nat.min_le_right _ _
  obtain ⟨t1, h1, h2, _⟩ :=
    foldlM_insert 0 ((entries (push_node m p)).take n)
      (reset (push_node m p) (2 * m.cap_)) hm2
      (hm1.entries_nodup.sublist ((List.take_sublist _ _).map _))
      (fun q _ v => not_has_of_allEmpty (hm1.reset_allEmpty _) q.1 v)
      (by rw [reset_size, reset_cap]
          simp only [rehash_enlarge_coaf]; omega)
  rw [h] at h1
  rw [Option.some.inj h1]
  exact h2

variable [Inhabited V]

/-- C19: in every reachable table the capacity is at least `default_capacity`
(8) and not zero, the bucket array has exactly `capacity()` cells, the index
`hash(key) mod capacity` that `find`, `insert` and `erase` compute is a
position of the array for every key, and every index in `filled_cells` is
below the capacity.  The same holds in the tables `insert` works on inside:
the table after the entry is appended, and the tables the re-insertions of a
grow run on. -/
theorem bucket_index_safe (m : HashMap K V) (hm : Reachable m) :
    IndexSafe m ∧
    (∀ p : K × V, find m p.1 = end_ m →
      IndexSafe (push_node m p) ∧
      ∀ n t, ((entries (push_node m p)).take n).foldlM (insert 1)
          (reset (push_node m p) (2 * capacity m)) = some t → IndexSafe t) := by
  refine ⟨hm.inv.inv0.indexSafe, fun p habs => ?_⟩
  have hc : counts m p.1 = false := find_eq_end_of_counts.2 habs
  have hno := (hm.inv.inv0.counts_false_iff _).1 hc
  exact ⟨(inv0_push_node hm.inv.inv0 p hno).indexSafe,
    fun n t h => (hm.inv.rehash_step_inv0 p hc n t h).indexSafe⟩

theorem bucket_index_safe_witness :
    Reachable exThree ∧
    (IndexSafe exThree ∧
    (∀ p : Nat × Nat, find exThree p.1 = end_ exThree →
      IndexSafe (push_node exThree p) ∧
      ∀ n t, ((entries (push_node exThree p)).take n).foldlM (insert 1)
          (reset (push_node exThree p) (2 * capacity exThree)) = some t → IndexSafe t)) :=
  ⟨reachable_exThree, bucket_index_safe exThree reachable_exThree⟩

end Claim19

section Claim20
variable {K V : Type} [DecidableEq K] [Inhabited V]

/-- C20: on a reachable table, `find(k)` equals `end()` exactly when no chain
of the table holds an entry with key `k`, and `counts(k)` holds exactly when
some chain does.  On an empty table the sentinel is the last cell with offset
0 and every chain is empty; on a non-empty one it is the cell of the last node
of `filled_cells` with the length of its chain as offset, and that chain is
not empty; a cursor `find` returns for a match has an offset inside the chain
of its cell, so it differs from the sentinel. -/
theorem end_sentinel_exact (m : HashMap K V) (hm : Reachable m) (k : K) :
    (find m k = end_ m ↔ ∀ c ∈ m.table_, ∀ p ∈ c.nodes, p.1 ≠ k) ∧
    (counts m k = true ↔ ∃ c ∈ m.table_, ∃ p ∈ c.nodes, p.1 = k) ∧
    (size m = 0 →
      end_ m = ⟨capacity m - 1, 0⟩ ∧ ∀ c ∈ m.table_, c.nodes = []) ∧
    (0 < size m →
      ∃ n, m.filled_cells.getLast? = some n ∧
        end_ m = ⟨n.2, (cellAt m n.2).nodes.length⟩ ∧
        0 < (cellAt m n.2).nodes.length) ∧
    (∀ pos, pos < (cellAt m (get_hash m k)).nodes.length →
      (⟨get_hash m k, pos⟩ : iterator) ≠ end_ m) := by
  have hm0 := hm.inv.inv0
  have hfind : find m k = end_ m ↔ ∀ c ∈ m.table_, ∀ p ∈ c.nodes, p.1 ≠ k := by
    rw [hm0.find_eq_end_iff]
    constructor
    · intro h c hc p hp e
      apply h p.2
      rw [hm0.has_iff_mem_table]
      refine ⟨c, hc, ?_⟩
      rw [← e]
      exact hp
    · intro h v hv
      obtain ⟨c, hc, hp⟩ := (hm0.has_iff_mem_table k v).1 hv
      exact h c hc (k, v) hp rfl
  refine ⟨hfind, ?_, ?_, ?_, fun pos hp => hm0.found_ne_end hp⟩
  · have : counts m k = true ↔ ¬ find m k = end_ m := by simp [counts]
    rw [this, hfind]
    push_neg
    rfl
  · intro hs
    constructor
    · simp only [end_, hs, gt_iff_lt, Nat.lt_irrefl, if_false, capacity, hm0.len_eq]
    · intro c hc
      obtain ⟨i, hi, rfl⟩ := List.mem_iff_getElem.1 hc
      have h1 := cellAt_nodes_length_le m i
      rw [← hm0.size_eq] at h1
      have h2 : m.size_ = 0 := hs
      rw [h2] at h1
      have h3 : cellAt m i = m.table_[i] := by
        unfold cellAt
        exact List.getD_eq_getElem _ _ hi
      rw [← h3]
      exact List.length_eq_zero.1 (Nat.le_zero.1 h1)
  · intro hs
    have hne : m.filled_cells ≠ [] := by
      intro e
      have := hm0.entries_length
      simp only [entries, e, List.flatMap_nil, List.length_nil] at this
      simp only [size] at hs
      omega
    obtain ⟨n, hn⟩ : ∃ n, m.filled_cells.getLast? = some n := by
      cases h : m.filled_cells.getLast? with
      | none => exact absurd (List.getLast?_eq_none_iff.1 h) hne
      | some n => exact ⟨n, rfl⟩
    have hb : back m.filled_cells = n.2 := by simp [back, hn]
    have hmem : n ∈ m.filled_cells := List.mem_of_getLast?_eq_some hn
    have hch : (cellAt m n.2).nodes ≠ [] :=
      (hm0.filled_iff n.2).1 (List.mem_map_of_mem Prod.snd hmem)
    refine ⟨n, hn, ?_, List.length_pos.2 hch⟩
    simp only [end_, hs, gt_iff_lt, if_true, hb]

theorem end_sentinel_exact_witness :
    Reachable exFour ∧
    ((find exFour 8 = end_ exFour ↔ ∀ c ∈ exFour.table_, ∀ p ∈ c.nodes, p.1 ≠ 8) ∧
    (counts exFour 8 = true ↔ ∃ c ∈ exFour.table_, ∃ p ∈ c.nodes, p.1 = 8) ∧
    (size exFour = 0 →
      end_ exFour = ⟨capacity exFour - 1, 0⟩ ∧ ∀ c ∈ exFour.table_, c.nodes = []) ∧
    (0 < size exFour →
      ∃ n, exFour.filled_cells.getLast? = some n ∧
        end_ exFour = ⟨n.2, (cellAt exFour n.2).nodes.length⟩ ∧
        0 < (cellAt exFour n.2).nodes.length) ∧
    (∀ pos, pos < (cellAt exFour (get_hash exFour 8)).nodes.length →
      (⟨get_hash exFour 8, pos⟩ : iterator) ≠ end_ exFour)) :=
  ⟨reachable_exFour, end_sentinel_exact exFour reachable_exFour 8⟩

end Claim20

end Task1
